import Mathlib

/-!
Verification of the sprout manifest engine core.

This file shallowly embeds the data model and core algorithms of the sprout
package manager (`src/ast.rs`, `src/parser/parser.rs`, `src/core/deps.rs`,
`src/manifest.rs`) and proves properties of the embedded code.

Modelling conventions:
* Rust `Vec<T>` becomes `List T`; `HashMap`/`HashSet` become association
  lists / membership on lists (order-insensitive where the source is).
* Machine integers are `Nat` with explicit `% 2^w` where overflow matters.
* Fallible Rust code (`Result`) becomes `Except String`.
* Potentially non-terminating recursion is given an explicit fuel
  parameter; `none` models a run that never returns (stack overflow).
-/

namespace Sprout

/-! ## Data model (from `src/ast.rs`) -/

/-- `GitSpec` from `src/ast.rs`: url, optional ref, recursive flag. -/
structure GitSpec where
  url : String
  ref_ : Option String
  recursive : Bool
deriving DecidableEq, Repr

/-- `HttpSpec` from `src/ast.rs`: url and optional sha256 checksum. -/
structure HttpSpec where
  url : String
  sha256 : Option String
deriving DecidableEq, Repr

/-- `LocalSpec` from `src/ast.rs`: filesystem path. -/
structure LocalSpec where
  path : String
deriving DecidableEq, Repr

/-- `FetchSpec` from `src/ast.rs`: tagged union of the retrieval strategies. -/
inductive FetchSpec where
  | Git : GitSpec → FetchSpec
  | Http : HttpSpec → FetchSpec
  | Local : LocalSpec → FetchSpec
deriving DecidableEq, Repr

/-- `FetchBlock`. `src/ast.rs` declares only the `spec` field, while
`src/parser/parser.rs` and `src/core/deps.rs` construct and read an
additional optional `output` field; we include it. Note that
`compute_fetch_hash` hashes only `spec`. -/
structure FetchBlock where
  spec : FetchSpec
  output : Option String := none
deriving DecidableEq, Repr

/-- `ScriptBlock` from `src/ast.rs`: ordered env assignments and ordered raw
command lines. -/
structure ScriptBlock where
  env : List (String × String)
  commands : List String
deriving DecidableEq, Repr

/-- `ModuleBlock` from `src/ast.rs`. -/
structure ModuleBlock where
  name : String
  depends_on : List String
  exports : List (String × String)
  fetch : Option FetchBlock
  build : Option ScriptBlock
  update : Option ScriptBlock
deriving DecidableEq, Repr

/-- `ModuleBlock::id` returns a copy of `name`. -/
def ModuleBlock.id (p : ModuleBlock) : String := p.name

/-- `EnvironmentsBlock` from `src/ast.rs`; the `HashMap<String, Vec<String>>`
is modelled as an association list. -/
structure EnvironmentsBlock where
  environments : List (String × List String)
deriving DecidableEq, Repr

/-- `SproutManifest` from `src/ast.rs`. -/
structure SproutManifest where
  modules : List ModuleBlock
  environments : Option EnvironmentsBlock
deriving DecidableEq, Repr

/-- The `self.modules.iter().find(|p| p.id() == module_id)` lookup used
throughout the source. -/
def findModule (m : SproutManifest) (module_id : String) : Option ModuleBlock :=
  m.modules.find? (fun p => p.name == module_id)

/-- The identifiers of the manifest's modules, in declaration order. -/
def moduleIds (m : SproutManifest) : List String :=
  m.modules.map (·.name)

/-! ## Dependency closure (from `SproutManifest::visit_dependencies`)

The Rust function recurses into every dependency *before* inserting the
current module into the visited set.  The recursion is modelled with an
explicit fuel parameter bounding the nesting depth of
`visit_dependencies` calls; `none` means the Rust execution would recurse
past that depth (and, for every fuel, models non-termination). -/

mutual

/-- `SproutManifest::visit_dependencies` from `src/ast.rs` (fuel-indexed).
State is the pair (visited, result). -/
def visitDeps (m : SproutManifest) :
    Nat → String → List String → List String → Option (List String × List String)
  | 0, _, _, _ => none
  | fuel + 1, module_id, visited, result =>
    if module_id ∈ visited then
      some (visited, result)
    else
      match findModule m module_id with
      | none => some (visited, result)
      | some pkg =>
        match visitDepsList m fuel pkg.depends_on visited result with
        | none => none
        | some (v, r) => some (module_id :: v, r ++ [module_id])
termination_by fuel _ _ _ => (fuel, 0)

/-- The `for dep in &pkg.depends_on { self.visit_dependencies(dep, ...) }`
loop, threading the (visited, result) state. -/
def visitDepsList (m : SproutManifest) :
    Nat → List String → List String → List String → Option (List String × List String)
  | _, [], visited, result => some (visited, result)
  | fuel, d :: ds, visited, result =>
    match visitDeps m fuel d visited result with
    | none => none
    | some (v, r) => visitDepsList m fuel ds v r
termination_by fuel ds _ _ => (fuel, ds.length + 1)

end

/-- `SproutManifest::get_all_dependencies` from `src/ast.rs`.  The fuel
`modules.length + 1` bounds the recursion depth of any terminating run
(call chains repeat a module name once the depth exceeds the number of
modules, and a repeated name means the Rust code loops forever); `none`
models that non-terminating execution. -/
def get_all_dependencies (m : SproutManifest) (module_id : String) :
    Option (List String) :=
  (visitDeps m (m.modules.length + 1) module_id [] []).map (·.2)

/-! ### Basic invariants of the dependency traversal -/

/-- Specification fragment: every identifier in the accumulated result either
was there already or names an existing module. -/
def VisitPushesModules (m : SproutManifest) (fuel : Nat) : Prop :=
  ∀ id v r out, visitDeps m fuel id v r = some out →
    ∀ x ∈ out.2, x ∈ r ∨ ∃ p, findModule m x = some p

/-- List version of `VisitPushesModules`. -/
def VisitListPushesModules (m : SproutManifest) (fuel : Nat) : Prop :=
  ∀ ds v r out, visitDepsList m fuel ds v r = some out →
    ∀ x ∈ out.2, x ∈ r ∨ ∃ p, findModule m x = some p

lemma visitListPushesModules_of (m : SproutManifest) (fuel : Nat)
    (hP : VisitPushesModules m fuel) : VisitListPushesModules m fuel := by
  intro ds
  induction ds with
  | nil =>
    intro v r out hout x hx
    simp only [visitDepsList] at hout
    cases hout
    exact Or.inl hx
  | cons d ds ih =>
    intro v r out hout x hx
    simp only [visitDepsList] at hout
    cases h1 : visitDeps m fuel d v r with
    | none => rw [h1] at hout; cases hout
    | some vr =>
      rw [h1] at hout
      rcases (ih vr.1 vr.2 out (by cases vr; exact hout) x hx) with hmem | hmod
      · exact hP d v r vr h1 x hmem
      · exact Or.inr hmod

lemma visitPushesModules (m : SproutManifest) : ∀ fuel, VisitPushesModules m fuel := by
  intro fuel
  induction fuel with
  | zero => intro id v r out hout; simp [visitDeps] at hout
  | succ n ih =>
    have hQ := visitListPushesModules_of m n ih
    intro id v r out hout x hx
    simp only [visitDeps] at hout
    by_cases hv : id ∈ v
    · rw [if_pos hv] at hout; cases hout; exact Or.inl hx
    · rw [if_neg hv] at hout
      cases hfind : findModule m id with
      | none => simp only [hfind] at hout; cases hout; exact Or.inl hx
      | some pkg =>
        simp only [hfind] at hout
        cases h1 : visitDepsList m n pkg.depends_on v r with
        | none => simp only [h1] at hout; cases hout
        | some vr =>
          cases vr with
          | mk v1 r1 =>
            simp only [h1] at hout
            cases hout
            rcases List.mem_append.mp hx with hx1 | hx1
            · exact hQ pkg.depends_on v r (v1, r1) h1 x hx1
            · have : x = id := by simpa using hx1
              subst this
              exact Or.inr ⟨pkg, hfind⟩

/-- C10: an unknown identifier yields the empty closure, and unresolvable
dependency identifiers never appear in any returned closure.  Proved below as
`c10_unknown_ids_skipped`. -/
theorem c10_unknown_ids_skipped (m : SproutManifest) (module_id : String)
    (hnone : findModule m module_id = none) :
    get_all_dependencies m module_id = some [] ∧
    ∀ id l, get_all_dependencies m id = some l →
      ∀ x ∈ l, ∃ p, findModule m x = some p := by
  constructor
  · simp [get_all_dependencies, visitDeps, hnone]
  · intro id l hl x hx
    simp only [get_all_dependencies, Option.map_eq_some'] at hl
    obtain ⟨out, hout, hsnd⟩ := hl
    rcases visitPushesModules m (m.modules.length + 1) id [] [] out hout x
        (by rw [hsnd]; exact hx) with hmem | hmod
    · cases hmem
    · exact hmod

/-- Witness for `c10_unknown_ids_skipped` at a concrete manifest. -/
theorem c10_unknown_ids_skipped_witness :
    get_all_dependencies ⟨[], none⟩ "x" = some [] :=
  (c10_unknown_ids_skipped ⟨[], none⟩ "x" rfl).1

/-! ### Non-termination of the traversal on a cyclic manifest (C4)

`visit_dependencies` inserts the current module into the visited set only
*after* recursing into its dependencies, so on a dependency cycle the visited
set never grows along the cycle and the Rust code recurses without bound. -/

/-- A manifest with a single module `a` that depends on itself. -/
def selfCycleManifest : SproutManifest :=
  { modules := [{ name := "a", depends_on := ["a"], exports := [],
                  fetch := none, build := none, update := none }],
    environments := none }

/-- C4 (refuting the claimed termination): on the self-cycle manifest the
traversal exhausts every fuel bound, i.e. the source recursion never
terminates, and `get_all_dependencies` diverges rather than "stopping
expanding". -/
theorem c4_visit_dependencies_diverges_on_cycle :
    (∀ fuel r, visitDeps selfCycleManifest fuel "a" [] r = none) ∧
    get_all_dependencies selfCycleManifest "a" = none := by
  have main : ∀ fuel r, visitDeps selfCycleManifest fuel "a" [] r = none := by
    intro fuel
    induction fuel with
    | zero => intro r; simp [visitDeps]
    | succ n ih =>
      intro r
      have hfind : findModule selfCycleManifest "a" =
          some { name := "a", depends_on := ["a"], exports := [],
                 fetch := none, build := none, update := none } := rfl
      simp [visitDeps, hfind, visitDepsList, ih r]
  exact ⟨main, by simp [get_all_dependencies, main]⟩

/-! ## Fingerprint engine (from `src/core/deps.rs`)

`compute_fetch_hash`/`compute_build_hash` feed the value into
`std::collections::hash_map::DefaultHasher` (SipHash-1-3 with zero keys)
via the derived `Hash` impls, then SHA-256 the 8-byte little-endian
encoding of the 64-bit result and render it as lowercase hex.

The hasher and the derive(Hash) byte encoding live in the Rust standard
library, and SHA-256 in the `sha2` crate; neither is part of this
repository's sources.  Modelled from the spec: a deterministic 64-bit
structural digest of the value's full content (realised here as
SipHash-1-3 over a structural byte encoding of the fields in declaration
order), followed by SHA-256 over the 8-byte little-endian encoding of
that digest, rendered as lowercase hex. -/

/-- 2^64, the modulus for 64-bit arithmetic. -/
def M64 : Nat := 2 ^ 64

/-- 64-bit left rotation. -/
def rotl64 (x b : Nat) : Nat := ((x <<< b) % M64) ||| (x >>> (64 - b))

/-- The four 64-bit state words of SipHash. -/
structure SipState where
  v0 : Nat
  v1 : Nat
  v2 : Nat
  v3 : Nat
deriving Repr, DecidableEq

/-- One SipRound. -/
def sipRound (s : SipState) : SipState :=
  let v0 := (s.v0 + s.v1) % M64
  let v1 := rotl64 s.v1 13
  let v1 := v1 ^^^ v0
  let v0 := rotl64 v0 32
  let v2 := (s.v2 + s.v3) % M64
  let v3 := rotl64 s.v3 16
  let v3 := v3 ^^^ v2
  let v0 := (v0 + v3) % M64
  let v3 := rotl64 v3 21
  let v3 := v3 ^^^ v0
  let v2 := (v2 + v1) % M64
  let v1 := rotl64 v1 17
  let v1 := v1 ^^^ v2
  let v2 := rotl64 v2 32
  ⟨v0, v1, v2, v3⟩

/-- Absorb one 64-bit message word (1 compression round for SipHash-1-3). -/
def sipCompress (s : SipState) (m : Nat) : SipState :=
  let s := { s with v3 := s.v3 ^^^ m }
  let s := sipRound s
  { s with v0 := s.v0 ^^^ m }

/-- Assemble bytes into a little-endian word. -/
def leWord (bs : List Nat) : Nat := bs.foldr (fun b acc => b + 256 * acc) 0

/-- Absorb full 8-byte blocks, then the final partial block carrying the
total length in the top byte. -/
def sipLoop (s : SipState) (len : Nat) : List Nat → SipState
  | b0 :: b1 :: b2 :: b3 :: b4 :: b5 :: b6 :: b7 :: rest =>
    sipLoop (sipCompress s (leWord [b0, b1, b2, b3, b4, b5, b6, b7])) len rest
  | short => sipCompress s (leWord short + len % 256 * 256 ^ 7)

/-- SipHash-1-3 with zero keys over a byte sequence (each byte `< 256`),
modelling `DefaultHasher::new()`/`finish()`. -/
def sipHash13 (data : List Nat) : Nat :=
  let s0 : SipState :=
    ⟨0x736f6d6570736575, 0x646f72616e646f6d, 0x6c7967656e657261, 0x7465646279746573⟩
  let s := sipLoop s0 data.length data
  let s := { s with v2 := s.v2 ^^^ 0xff }
  let s := sipRound (sipRound (sipRound s))
  s.v0 ^^^ s.v1 ^^^ s.v2 ^^^ s.v3

/-- `w` bytes of `n`, little-endian. -/
def leBytes (w n : Nat) : List Nat := (List.range w).map (fun i => n / 256 ^ i % 256)

/-- `w` bytes of `n`, big-endian. -/
def beBytes (w n : Nat) : List Nat := (List.range w).map (fun i => n / 256 ^ (w - 1 - i) % 256)

/-- UTF-8 encoding of a single character. -/
def utf8Bytes (c : Char) : List Nat :=
  let n := c.toNat
  if n < 0x80 then [n]
  else if n < 0x800 then [0xc0 + n / 64, 0x80 + n % 64]
  else if n < 0x10000 then [0xe0 + n / 4096, 0x80 + n / 64 % 64, 0x80 + n % 64]
  else [0xf0 + n / 262144, 0x80 + n / 4096 % 64, 0x80 + n / 64 % 64, 0x80 + n % 64]

/-- Structural byte encoding of a string: its UTF-8 bytes followed by a
0xff terminator (as in `impl Hash for str`). -/
def encStr (s : String) : List Nat := s.data.flatMap utf8Bytes ++ [0xff]

/-- Structural byte encoding of an optional string: discriminant then payload. -/
def encOptStr : Option String → List Nat
  | none => leBytes 8 0
  | some s => leBytes 8 1 ++ encStr s

/-- Structural byte encoding of a boolean. -/
def encBool (b : Bool) : List Nat := [if b then 1 else 0]

/-- Structural byte encoding of a `FetchSpec`: variant discriminant followed
by every field in declaration order. -/
def encFetchSpec : FetchSpec → List Nat
  | .Git g => leBytes 8 0 ++ encStr g.url ++ encOptStr g.ref_ ++ encBool g.recursive
  | .Http s => leBytes 8 1 ++ encStr s.url ++ encOptStr s.sha256
  | .Local l => leBytes 8 2 ++ encStr l.path

/-- Structural byte encoding of a list: length prefix then elements in order. -/
def encListWith {α : Type} (f : α → List Nat) (xs : List α) : List Nat :=
  leBytes 8 xs.length ++ xs.flatMap f

/-- Structural byte encoding of a `ScriptBlock`: the ordered env list then
the ordered command list. -/
def encScriptBlock (b : ScriptBlock) : List Nat :=
  encListWith (fun kv => encStr kv.1 ++ encStr kv.2) b.env ++ encListWith encStr b.commands

/-- 2^32, the modulus for 32-bit arithmetic. -/
def M32 : Nat := 2 ^ 32

/-- 32-bit right rotation. -/
def rotr32 (x b : Nat) : Nat := (x >>> b) ||| ((x <<< (32 - b)) % M32)

/-- SHA-256 round constants (FIPS 180-4). -/
def shaK : List Nat :=
  [1116352408, 1899447441, 3049323471, 3921009573, 961987163, 1508970993,
   2453635748, 2870763221, 3624381080, 310598401, 607225278, 1426881987,
   1925078388, 2162078206, 2614888103, 3248222580, 3835390401, 4022224774,
   264347078, 604807628, 770255983, 1249150122, 1555081692, 1996064986,
   2554220882, 2821834349, 2952996808, 3210313671, 3336571891, 3584528711,
   113926993, 338241895, 666307205, 773529912, 1294757372, 1396182291,
   1695183700, 1986661051, 2177026350, 2456956037, 2730485921, 2820302411,
   3259730800, 3345764771, 3516065817, 3600352804, 4094571909, 275423344,
   430227734, 506948616, 659060556, 883997877, 958139571, 1322822218,
   1537002063, 1747873779, 1955562222, 2024104815, 2227730452, 2361852424,
   2428436474, 2756734187, 3204031479, 3329325298]

/-- The eight 32-bit working variables of SHA-256. -/
structure Sha256State where
  a : Nat
  b : Nat
  c : Nat
  d : Nat
  e : Nat
  f : Nat
  g : Nat
  hh : Nat
deriving Repr, DecidableEq

/-- SHA-256 initial hash value (FIPS 180-4). -/
def shaH0 : Sha256State :=
  ⟨1779033703, 3144134277, 1013904242, 2773480762,
   1359893119, 2600822924, 528734635, 1541459225⟩

/-- Extend the 16 message words to 64. -/
def shaExtend : Nat → List Nat → List Nat
  | 0, w => w
  | k + 1, w =>
    let t :=
      ((rotr32 (w.getD (w.length - 2) 0) 17 ^^^ rotr32 (w.getD (w.length - 2) 0) 19 ^^^
          (w.getD (w.length - 2) 0 >>> 10)) +
        w.getD (w.length - 7) 0 +
        (rotr32 (w.getD (w.length - 15) 0) 7 ^^^ rotr32 (w.getD (w.length - 15) 0) 18 ^^^
          (w.getD (w.length - 15) 0 >>> 3)) +
        w.getD (w.length - 16) 0) % M32
    shaExtend k (w ++ [t])

/-- One SHA-256 round with round constant `k` and message word `wi`. -/
def shaRound (s : Sha256State) (k wi : Nat) : Sha256State :=
  let s1 := rotr32 s.e 6 ^^^ rotr32 s.e 11 ^^^ rotr32 s.e 25
  let ch := (s.e &&& s.f) ^^^ ((s.e ^^^ (M32 - 1)) &&& s.g)
  let t1 := (s.hh + s1 + ch + k + wi) % M32
  let s0 := rotr32 s.a 2 ^^^ rotr32 s.a 13 ^^^ rotr32 s.a 22
  let mj := (s.a &&& s.b) ^^^ (s.a &&& s.c) ^^^ (s.b &&& s.c)
  let t2 := (s0 + mj) % M32
  ⟨(t1 + t2) % M32, s.a, s.b, s.c, (s.d + t1) % M32, s.e, s.f, s.g⟩

/-- Compress one 512-bit block (given as 16 big-endian words). -/
def shaCompressBlock (s : Sha256State) (block : List Nat) : Sha256State :=
  let w := shaExtend 48 block
  let t := (shaK.zip w).foldl (fun st kw => shaRound st kw.1 kw.2) s
  ⟨(s.a + t.a) % M32, (s.b + t.b) % M32, (s.c + t.c) % M32, (s.d + t.d) % M32,
   (s.e + t.e) % M32, (s.f + t.f) % M32, (s.g + t.g) % M32, (s.hh + t.hh) % M32⟩

/-- SHA-256 padding: 0x80, zeros, then the 64-bit big-endian bit length. -/
def sha256Pad (msg : List Nat) : List Nat :=
  let L := msg.length
  msg ++ [0x80] ++ List.replicate ((64 - (L + 9) % 64) % 64) 0 ++ beBytes 8 (8 * L)

/-- Group bytes into big-endian 32-bit words. -/
def toWordsBE : List Nat → List Nat
  | b0 :: b1 :: b2 :: b3 :: rest => (((b0 * 256 + b1) * 256 + b2) * 256 + b3) :: toWordsBE rest
  | _ => []

/-- Group words into 16-word blocks. -/
def toBlocks16 : List Nat → List (List Nat)
  | a0 :: a1 :: a2 :: a3 :: a4 :: a5 :: a6 :: a7 ::
    a8 :: a9 :: a10 :: a11 :: a12 :: a13 :: a14 :: a15 :: rest =>
    [a0, a1, a2, a3, a4, a5, a6, a7, a8, a9, a10, a11, a12, a13, a14, a15] :: toBlocks16 rest
  | _ => []

/-- SHA-256 of a byte sequence, as 32 bytes. -/
def sha256 (msg : List Nat) : List Nat :=
  let s := (toBlocks16 (toWordsBE (sha256Pad msg))).foldl shaCompressBlock shaH0
  beBytes 4 s.a ++ beBytes 4 s.b ++ beBytes 4 s.c ++ beBytes 4 s.d ++
  beBytes 4 s.e ++ beBytes 4 s.f ++ beBytes 4 s.g ++ beBytes 4 s.hh

/-- Lowercase hexadecimal digit. -/
def hexDigitChar (n : Nat) : Char :=
  if n < 10 then Char.ofNat (48 + n) else Char.ofNat (87 + n)

/-- Lowercase hexadecimal rendering of a byte sequence, two digits per byte
(as `format!("{:x}", ...)` on a digest). -/
def hexOfBytes (bs : List Nat) : String :=
  ⟨bs.flatMap (fun b => [hexDigitChar (b / 16), hexDigitChar (b % 16)])⟩

/-- `compute_fetch_hash` from `src/core/deps.rs`: hash of the fetch spec
(only), `none` when the module has no fetch block. -/
def compute_fetch_hash (package : ModuleBlock) : Option String :=
  package.fetch.map (fun fetch =>
    let hash_value := sipHash13 (encFetchSpec fetch.spec)
    hexOfBytes (sha256 (leBytes 8 hash_value)))

/-- `compute_build_hash` from `src/core/deps.rs`: hash of the build block,
`none` when the module has no build block. -/
def compute_build_hash (package : ModuleBlock) : Option String :=
  package.build.map (fun build =>
    let hash_value := sipHash13 (encScriptBlock build)
    hexOfBytes (sha256 (leBytes 8 hash_value)))

/-- Sanity: SHA-256 of the empty message matches the FIPS test vector. -/
example : hexOfBytes (sha256 []) =
    "e3b0c44298fc1c149afbf4c8996fb92427ae41e4649b934ca495991b7852b855" := by decide

/-- Sanity: SHA-256 of "abc" matches the FIPS test vector. -/
example : hexOfBytes (sha256 (encStr "abc").dropLast) =
    "ba7816bf8f01cfea414140de5dae2223b00361a396177a9cb410ff61f20015ad" := by decide

/-- Sanity: SipHash-1-3 with zero keys over the empty message. -/
example : sipHash13 [] = 0xd1fba762150c532c := by decide

-- Sanity: the full fingerprint pipeline on a concrete fetch spec
-- (cross-checked against an independent implementation).
set_option maxRecDepth 4000 in
example :
    compute_fetch_hash
      ⟨"m", [], [], some ⟨.Local ⟨"p"⟩, none⟩, none, none⟩ =
    some "433a06d6719e492a6d04047079e8a0e3873636f9ea314f7279a68845171223ae" := by decide

/-- C2: the fingerprints are functions of the structural content alone —
two modules with structurally equal fetch specs (resp. build scripts) get
identical digest strings, regardless of how or when they were constructed. -/
theorem c2_fingerprint_determinism (m1 m2 : ModuleBlock)
    (hf : m1.fetch.map FetchBlock.spec = m2.fetch.map FetchBlock.spec)
    (hb : m1.build = m2.build) :
    compute_fetch_hash m1 = compute_fetch_hash m2 ∧
    compute_build_hash m1 = compute_build_hash m2 := by
  constructor
  · cases h1 : m1.fetch with
    | none =>
      cases h2 : m2.fetch with
      | none => simp [compute_fetch_hash, h1, h2]
      | some b2 => rw [h1, h2] at hf; simp at hf
    | some b1 =>
      cases h2 : m2.fetch with
      | none => rw [h1, h2] at hf; simp at hf
      | some b2 =>
        rw [h1, h2] at hf
        simp only [Option.map_some'] at hf
        simp only [Option.some.injEq] at hf
        simp [compute_fetch_hash, h1, h2, hf]
  · simp [compute_build_hash, hb]

/-- Witness for `c2_fingerprint_determinism`: two independently constructed
modules sharing a fetch spec fingerprint identically. -/
theorem c2_fingerprint_determinism_witness :
    compute_fetch_hash
      ⟨"first", [], [], some ⟨.Git ⟨"https://e.com/r.git", some "v1.0", false⟩, none⟩,
        some ⟨[("CC", "gcc")], ["make"]⟩, none⟩ =
    compute_fetch_hash
      ⟨"second", ["first"], [("X", "y")],
        some ⟨.Git ⟨"https://e.com/r.git", some "v1.0", false⟩, none⟩,
        some ⟨[("CC", "gcc")], ["make"]⟩, none⟩ :=
  (c2_fingerprint_determinism _ _ rfl rfl).1

lemma sha256_length (msg : List Nat) : (sha256 msg).length = 32 := by
  simp [sha256, beBytes]

lemma sha256_bytes_lt (msg : List Nat) : ∀ x ∈ sha256 msg, x < 256 := by
  intro x hx
  simp only [sha256, beBytes, List.mem_append, List.mem_map, List.mem_range] at hx
  rcases hx with ((((((h | h) | h) | h) | h) | h) | h) | h <;>
    · obtain ⟨i, _, hi⟩ := h
      rw [← hi]
      exact Nat.mod_lt _ (by norm_num)

lemma hexDigitChar_mem (n : Nat) (hn : n < 16) :
    hexDigitChar n ∈ "0123456789abcdef".data := by
  interval_cases n <;> decide

lemma hexOfBytes_spec (bs : List Nat) (hlt : ∀ x ∈ bs, x < 256) :
    (hexOfBytes bs).length = 2 * bs.length ∧
    ∀ c ∈ (hexOfBytes bs).data, c ∈ "0123456789abcdef".data := by
  constructor
  · show (bs.flatMap _).length = 2 * bs.length
    induction bs with
    | nil => rfl
    | cons b bs ih =>
      simp only [List.flatMap_cons, List.length_append, List.length_cons,
        List.length_nil] at *
      have := ih (fun x hx => hlt x (List.mem_cons_of_mem _ hx))
      omega
  · intro c hc
    show c ∈ _
    simp only [hexOfBytes, List.mem_flatMap, List.mem_cons, List.not_mem_nil,
      or_false] at hc
    obtain ⟨b, hb, hc⟩ := hc
    have hblt := hlt b hb
    rcases hc with h | h
    · rw [h]; exact hexDigitChar_mem _ (by omega)
    · rw [h]; exact hexDigitChar_mem _ (Nat.mod_lt _ (by omega))

/-- C6: a fingerprint is absent exactly when the corresponding block is
absent, and a present fingerprint is the lowercase-hex SHA-256 of the 8-byte
little-endian encoding of the 64-bit structural digest of the block's
content (for fetch, of its spec — the field `compute_fetch_hash` hashes). -/
theorem c6_fingerprint_pipeline (m : ModuleBlock) :
    (compute_fetch_hash m = none ↔ m.fetch = none) ∧
    (compute_build_hash m = none ↔ m.build = none) ∧
    (∀ fb, m.fetch = some fb →
      compute_fetch_hash m =
        some (hexOfBytes (sha256 (leBytes 8 (sipHash13 (encFetchSpec fb.spec)))))) ∧
    (∀ sb, m.build = some sb →
      compute_build_hash m =
        some (hexOfBytes (sha256 (leBytes 8 (sipHash13 (encScriptBlock sb)))))) ∧
    (∀ s, compute_fetch_hash m = some s ∨ compute_build_hash m = some s →
      s.length = 64 ∧ ∀ c ∈ s.data, c ∈ "0123456789abcdef".data) := by
  refine ⟨?_, ?_, ?_, ?_, ?_⟩
  · simp [compute_fetch_hash, Option.map_eq_none']
  · simp [compute_build_hash, Option.map_eq_none']
  · intro fb hfb; simp [compute_fetch_hash, hfb]
  · intro sb hsb; simp [compute_build_hash, hsb]
  · intro s hs
    have key : ∀ msg : List Nat, s = hexOfBytes (sha256 msg) →
        s.length = 64 ∧ ∀ c ∈ s.data, c ∈ "0123456789abcdef".data := by
      intro msg hmsg
      obtain ⟨hlen, hmem⟩ := hexOfBytes_spec (sha256 msg) (sha256_bytes_lt msg)
      subst hmsg
      refine ⟨?_, hmem⟩
      show (hexOfBytes (sha256 msg)).length = 64
      rw [hlen, sha256_length]
    rcases hs with hs | hs
    · cases hfb : m.fetch with
      | none => rw [compute_fetch_hash, hfb] at hs; cases hs
      | some fb =>
        rw [compute_fetch_hash, hfb] at hs
        simp only [Option.map_some', Option.some.injEq] at hs
        exact key _ hs.symm
    · cases hsb : m.build with
      | none => rw [compute_build_hash, hsb] at hs; cases hs
      | some sb =>
        rw [compute_build_hash, hsb] at hs
        simp only [Option.map_some', Option.some.injEq] at hs
        exact key _ hs.symm

/-- Witness for `c6_fingerprint_pipeline` at a concrete module. -/
theorem c6_fingerprint_pipeline_witness :
    compute_fetch_hash ⟨"w", [], [], some ⟨.Local ⟨"p"⟩, none⟩, none, none⟩ =
      some (hexOfBytes (sha256 (leBytes 8 (sipHash13
        (encFetchSpec (FetchBlock.mk (.Local ⟨"p"⟩) none).spec))))) :=
  (c6_fingerprint_pipeline _).2.2.1 ⟨.Local ⟨"p"⟩, none⟩ rfl

/-! ## Pretty-printing of script blocks (from `src/ast.rs`)

`ScriptBlock::pretty_print` emits the env sub-block with its entries
*sorted by key* (`env_vars.sort_by_key(...)`), then the command lines in
order.  Rust's `sort_by_key` is a stable sort by the key; it is modelled
with a stable insertion sort ordered by the pair's first component. -/

/-- Lexicographic comparison of character lists by code point (Rust's `Ord`
for `String` is lexicographic byte order, which agrees with code-point order
under UTF-8). -/
def charListLe : List Char → List Char → Bool
  | [], _ => true
  | _ :: _, [] => false
  | c :: cs, d :: ds =>
    if c.toNat < d.toNat then true
    else if d.toNat < c.toNat then false
    else charListLe cs ds

/-- String comparison used for `sort_by_key`. -/
def strLe (a b : String) : Bool := charListLe a.data b.data

/-- Insert into a sorted list, keeping earlier elements first on ties. -/
def insertLe {α : Type} (le : α → α → Bool) (a : α) : List α → List α
  | [] => [a]
  | b :: bs => if le a b then a :: b :: bs else b :: insertLe le a bs

/-- Stable insertion sort, modelling Rust's stable `sort_by_key`. -/
def sortLe {α : Type} (le : α → α → Bool) : List α → List α
  | [] => []
  | a :: as => insertLe le a (sortLe le as)

/-- `ScriptBlock::pretty_print` from `src/ast.rs` (lines 263-284). -/
def ScriptBlock.pretty_print (b : ScriptBlock) : String :=
  let envPart :=
    if b.env.isEmpty then ""
    else
      "        env \x7b\n" ++
        String.join ((sortLe (fun x y => strLe x.1 y.1) b.env).map
          (fun kv => "            " ++ kv.1 ++ " = \"" ++ kv.2 ++ "\"\n")) ++
        "        \x7d\n"
  envPart ++ String.join (b.commands.map (fun c => "        " ++ c ++ "\n"))

/-- C1 (refutation): pretty-printing sorts env entries by key, so two script
blocks that differ only in env order print to the *same* text; no parse of
the printed text can recover the original env order, hence the round-trip
cannot leave env order unchanged. -/
theorem c1_pretty_print_env_order_collision :
    ScriptBlock.pretty_print ⟨[("Z_VAR", "last"), ("A_VAR", "first")], ["make"]⟩ =
      ScriptBlock.pretty_print ⟨[("A_VAR", "first"), ("Z_VAR", "last")], ["make"]⟩ ∧
    (⟨[("Z_VAR", "last"), ("A_VAR", "first")], ["make"]⟩ : ScriptBlock) ≠
      ⟨[("A_VAR", "first"), ("Z_VAR", "last")], ["make"]⟩ := by
  constructor <;> decide

/-! ## Build orchestration policy (from `build_package` in `src/core/deps.rs`)

The decision structure of `build_package` is embedded as a pure plan over
an abstract world (which dist directories exist, whether the source
directory exists, the ledger contents).  Filesystem mutation, subprocess
execution, logging and progress display are the external collaborators'
side; the plan records which of the policy-relevant actions happen.
The outer `Option` models divergence of the `get_all_dependencies`
traversal (see `visitDeps`); `Except` carries the error paths. -/

/-- Modelled from the spec: the lockfile's per-module fingerprint record
(`PackageState`; the lockfile module's implementation is not among the
sources, spec section 3 "Fingerprint record"). -/
structure PackageState where
  fetch_hash : Option String
  build_hash : Option String
deriving DecidableEq, Repr

/-- Modelled from the spec: the build-state ledger keyed by module id
(`SproutLock`), exposing `get_module_state`. -/
structure SproutLock where
  states : List (String × PackageState)
deriving DecidableEq, Repr

/-- `SproutLock::get_module_state`. -/
def SproutLock.get_module_state (lock : SproutLock) (module_id : String) :
    Option PackageState :=
  (lock.states.find? (fun e => e.1 == module_id)).map (·.2)

/-- The policy-relevant actions taken by one `build_package` invocation. -/
structure BuildActions where
  skipped : Bool
  cleanedDist : Bool
  ranScript : Bool
deriving DecidableEq, Repr

/-- The dependency-readiness loop of `build_package` (`src/core/deps.rs`
lines 195-219): first unbuilt or stale dependency aborts the build. -/
def checkDeps (m : SproutManifest) (lock : SproutLock) (distExists : String → Bool) :
    List String → Except String Unit
  | [] => .ok ()
  | dep :: rest =>
    match findModule m dep with
    | none => checkDeps m lock distExists rest
    | some dep_pkg =>
      if !distExists dep_pkg.id then
        .error ("Dependency '" ++ dep ++ "' is not built yet. Build it first.")
      else
        match lock.get_module_state dep with
        | some dep_state =>
          if compute_build_hash dep_pkg == dep_state.build_hash then
            checkDeps m lock distExists rest
          else
            .error ("Dependency '" ++ dep ++ "' has changed and needs rebuilding. Rebuild it first.")
        | none => checkDeps m lock distExists rest

/-- The decision logic of `build_package` (`src/core/deps.rs` lines
154-413, dry-run and IO plumbing elided): dependency readiness, the
up-to-date fast path, the source-directory check, and crucially the
`if rebuild && dist_path.exists()` guard on cleaning the dist directory
(lines 246-250) before the build script runs. -/
def build_package_plan (m : SproutManifest) (lock : SproutLock)
    (distExists : String → Bool) (sourceExists : Bool)
    (package : ModuleBlock) (rebuild : Bool) : Option (Except String BuildActions) :=
  let module_id := package.id
  let depsCheck : Option (Except String Unit) :=
    if package.depends_on.isEmpty then some (.ok ())
    else
      (get_all_dependencies m module_id).map (fun all_deps =>
        checkDeps m lock distExists (all_deps.take (all_deps.length - 1)))
  match depsCheck with
  | none => none
  | some (.error e) => some (.error e)
  | some (.ok ()) =>
    some <|
      let upToDate :=
        !rebuild && distExists module_id &&
          (match lock.get_module_state module_id with
           | some state => compute_build_hash package == state.build_hash
           | none => false)
      if upToDate then
        .ok ⟨true, false, false⟩
      else if package.fetch.isSome && !sourceExists then
        .error ("Source directory does not exist for " ++ module_id)
      else
        .ok ⟨false, rebuild && distExists module_id, package.build.isSome⟩

/-- C7 counterexample: a module whose current build fingerprint differs from
the ledger's record (ledger records no hash, current hash exists), with an
existing dist directory and no forced rebuild: the plan reaches the build
script without discarding the existing output. -/
theorem c7_counterexample :
    build_package_plan ⟨[⟨"m", [], [], none, some ⟨[], ["make"]⟩, none⟩], none⟩
        ⟨[("m", ⟨none, none⟩)]⟩ (fun _ => true) true
        ⟨"m", [], [], none, some ⟨[], ["make"]⟩, none⟩ false =
      some (.ok ⟨false, false, true⟩) ∧
    compute_build_hash ⟨"m", [], [], none, some ⟨[], ["make"]⟩, none⟩ ≠
      (((⟨[("m", ⟨none, none⟩)]⟩ : SproutLock).get_module_state "m").bind (·.build_hash)) := by
  constructor
  · rfl
  · intro h
    have hrec : (((⟨[("m", ⟨none, none⟩)]⟩ : SproutLock).get_module_state "m").bind
        (·.build_hash)) = none := rfl
    rw [hrec, compute_build_hash] at h
    simp at h

/-- C7 as amended: the existing dist directory is discarded exactly when a
rebuild is forced and the directory exists; a mere fingerprint mismatch
without a forced rebuild proceeds to the build script without discarding,
and the up-to-date fast path only fires without a forced rebuild. -/
theorem c7_dist_cleaned_iff_forced (m : SproutManifest) (lock : SproutLock)
    (distExists : String → Bool) (sourceExists : Bool)
    (package : ModuleBlock) (rebuild : Bool) (act : BuildActions)
    (hplan : build_package_plan m lock distExists sourceExists package rebuild =
      some (.ok act)) :
    act.cleanedDist = (rebuild && distExists package.id) ∧
    (act.skipped = true → rebuild = false ∧ act.cleanedDist = false ∧ act.ranScript = false) := by
  rw [build_package_plan] at hplan
  rcases hdc : (if package.depends_on.isEmpty then some (.ok ())
    else (get_all_dependencies m package.id).map (fun all_deps =>
      checkDeps m lock distExists (all_deps.take (all_deps.length - 1)))) with _ | ec
  · rw [hdc] at hplan; cases hplan
  · rw [hdc] at hplan
    cases ec with
    | error e => simp at hplan
    | ok u =>
      cases u
      simp only [Option.some.injEq] at hplan
      by_cases hup : (!rebuild && distExists package.id &&
          (match lock.get_module_state package.id with
           | some state => compute_build_hash package == state.build_hash
           | none => false)) = true
      · rw [if_pos hup] at hplan
        cases hplan
        simp only [Bool.and_eq_true, Bool.not_eq_true'] at hup
        obtain ⟨⟨hr, _⟩, _⟩ := hup
        subst hr
        exact ⟨by simp, fun _ => ⟨rfl, rfl, rfl⟩⟩
      · rw [if_neg hup] at hplan
        by_cases hsrc : (package.fetch.isSome && !sourceExists) = true
        · rw [if_pos hsrc] at hplan; cases hplan
        · rw [if_neg hsrc] at hplan
          cases hplan
          exact ⟨rfl, fun h => by cases h⟩

/-- Witness for `c7_dist_cleaned_iff_forced`: forced rebuild with an
existing dist directory does clean it. -/
theorem c7_dist_cleaned_iff_forced_witness :
    (BuildActions.mk false true true).cleanedDist = (true && true) :=
  (c7_dist_cleaned_iff_forced ⟨[⟨"m", [], [], none, some ⟨[], ["make"]⟩, none⟩], none⟩
    ⟨[("m", ⟨none, none⟩)]⟩ (fun _ => true) true
    ⟨"m", [], [], none, some ⟨[], ["make"]⟩, none⟩ true ⟨false, true, true⟩ rfl).1

/-! ## Dependency resolver (from `resolve_dependency_order` in `src/core/deps.rs`)

Kahn's algorithm: an edge runs from each dependency to each dependent.
`HashMap` iteration order in the source is unspecified; the embedding
fixes declaration order (the claims are order-insensitive among
simultaneously-ready nodes).  Rust's `Vec` push/pop queue is a stack,
modelled with the list head as the top. -/

/-- The edge-construction loop: an edge `(dep_id, dependent_id)` per
`depends_on` entry, failing on the first identifier that names no module. -/
def buildEdges (m : SproutManifest) : Except String (List (String × String)) :=
  m.modules.foldl
    (fun acc pkg =>
      match acc with
      | .error e => .error e
      | .ok es =>
        pkg.depends_on.foldl
          (fun acc2 dep =>
            match acc2 with
            | .error e => .error e
            | .ok es2 =>
              match findModule m dep with
              | some p => .ok (es2 ++ [(p.name, pkg.id)])
              | none => .error ("Dependency not found: " ++ dep))
          (.ok es))
    (.ok [])

/-- Decrement the in-degree of each out-neighbor of the popped node,
pushing nodes that reach zero onto the queue. -/
def processNeighbors (nbrs : List String) (indeg : String → Nat) (queue : List String) :
    (String → Nat) × List String :=
  nbrs.foldl
    (fun acc nb =>
      let d := acc.1 nb - 1
      let indeg' := fun y => if y = nb then d else acc.1 y
      if d = 0 then (indeg', nb :: acc.2) else (indeg', acc.2))
    (indeg, queue)

/-- The `while let Some(current) = queue.pop()` loop.  Each iteration
appends one node to the result, so `modules.length + 1` fuel is ample for
every reachable state (proved in the invariant lemmas below). -/
def kahnLoop (g : String → List String) :
    Nat → (String → Nat) → List String → List String → List String
  | 0, _, _, res => res
  | fuel + 1, indeg, queue, res =>
    match queue with
    | [] => res
    | cur :: rest =>
      let step := processNeighbors (g cur) indeg rest
      kahnLoop g fuel step.1 step.2 (res ++ [cur])

/-- The adjacency function: out-neighbors (dependents) of a node, in edge
order. -/
def gOf (E : List (String × String)) (x : String) : List String :=
  (E.filter (fun e => e.1 == x)).map (·.2)

/-- The initial in-degree of a node: how many edges point at it. -/
def indegOf (E : List (String × String)) (x : String) : Nat :=
  (E.filter (fun e => e.2 == x)).length

/-- `resolve_dependency_order` from `src/core/deps.rs` (lines 45-100). -/
def resolve_dependency_order (m : SproutManifest) : Except String (List ModuleBlock) :=
  match buildEdges m with
  | .error e => .error e
  | .ok edges =>
    let ids := (moduleIds m).dedup
    let queue := ids.filter (fun x => indegOf edges x == 0)
    let resIds := kahnLoop (gOf edges) (m.modules.length + 1) (indegOf edges) queue []
    if resIds.length = m.modules.length then
      .ok (resIds.filterMap (fun i => findModule m i))
    else
      .error "Circular dependency detected"

/-- The dependency edges as a set: `(a, b)` when module `b` depends on `a`. -/
def edgesOf (m : SproutManifest) : List (String × String) :=
  m.modules.flatMap (fun pkg => pkg.depends_on.map (fun dep => (dep, pkg.name)))

/-- `b` declares a dependency on `a` (an edge of the dependency graph). -/
def DepEdge (m : SproutManifest) (a b : String) : Prop := (a, b) ∈ edgesOf m

/-- `a` occurs strictly before `b` in the list. -/
def Before (l : List String) (a b : String) : Prop :=
  ∃ i j, i < j ∧ l.get? i = some a ∧ l.get? j = some b

-- Sanity: the spec's scenario — modules `a` (no deps) and `b` depending on
-- `a` resolve in the order [a, b]; a two-cycle is reported as circular.
example :
    resolve_dependency_order
      ⟨[⟨"a", [], [], none, none, none⟩, ⟨"b", ["a"], [], none, none, none⟩], none⟩ =
    .ok [⟨"a", [], [], none, none, none⟩, ⟨"b", ["a"], [], none, none, none⟩] := rfl

example :
    resolve_dependency_order
      ⟨[⟨"a", ["b"], [], none, none, none⟩, ⟨"b", ["a"], [], none, none, none⟩], none⟩ =
    .error "Circular dependency detected" := rfl

example :
    resolve_dependency_order
      ⟨[⟨"a", ["zz"], [], none, none, none⟩], none⟩ =
    .error "Dependency not found: zz" := rfl

/-! ### Counting lemmas -/

/-- In-degree of `x` counting only edges whose source has not yet been
popped into `res`. -/
def countIn (E : List (String × String)) (res : List String) (x : String) : Nat :=
  E.countP (fun e => e.2 == x && !(decide (e.1 ∈ res)))

lemma countP_and_split {α : Type} (p q : α → Bool) (l : List α) :
    l.countP p = l.countP (fun a => p a && q a) + l.countP (fun a => p a && !q a) := by
  induction l with
  | nil => rfl
  | cons a l ih =>
    simp only [List.countP_cons, ih]
    cases hpa : p a <;> cases hqa : q a <;> simp [hpa, hqa] <;> omega

lemma count_gOf (E : List (String × String)) (cur x : String) :
    (gOf E cur).count x = E.countP (fun e => e.2 == x && e.1 == cur) := by
  rw [gOf, List.count_eq_countP, List.countP_map, List.countP_filter]
  apply List.countP_congr
  intro e _
  simp [Function.comp, Bool.and_comm]

lemma indegOf_eq_countIn_nil (E : List (String × String)) (x : String) :
    indegOf E x = countIn E [] x := by
  rw [indegOf, ← List.countP_eq_length_filter, countIn]
  apply List.countP_congr
  intro e _
  simp

/-! ### Order-in-list lemmas -/

lemma Before.mono_append (l l' : List String) (a b : String) (h : Before l a b) :
    Before (l ++ l') a b := by
  obtain ⟨i, j, hij, hi, hj⟩ := h
  have hjlen : j < l.length := (List.get?_eq_some.mp hj).1
  exact ⟨i, j, hij, by rw [List.get?_append (Nat.lt_trans hij hjlen)]; exact hi,
    by rw [List.get?_append hjlen]; exact hj⟩

lemma before_of_mem_append (l : List String) (a b : String)
    (ha : a ∈ l) (hb : b ∉ l) : Before (l ++ [b]) a b := by
  obtain ⟨i, hi⟩ := List.mem_iff_get.mp ha
  refine ⟨i, l.length, i.isLt, ?_, List.get?_concat_length l b⟩
  rw [List.get?_append i.isLt]
  rw [List.get?_eq_get i.isLt]
  exact congrArg some hi

lemma Before.mem_left {l : List String} {a b : String} (h : Before l a b) : a ∈ l := by
  obtain ⟨i, _, _, hi, _⟩ := h
  exact List.get?_mem hi

lemma Before.mem_right {l : List String} {a b : String} (h : Before l a b) : b ∈ l := by
  obtain ⟨_, j, _, _, hj⟩ := h
  exact List.get?_mem hj

lemma Before.trans {l : List String} (hnd : l.Nodup) {a b c : String}
    (hab : Before l a b) (hbc : Before l b c) : Before l a c := by
  obtain ⟨i, j, hij, hi, hj⟩ := hab
  obtain ⟨k, w, hkw, hk, hw⟩ := hbc
  obtain ⟨hjl, hjget⟩ := List.get?_eq_some.mp hj
  obtain ⟨hkl, hkget⟩ := List.get?_eq_some.mp hk
  have : (⟨j, hjl⟩ : Fin l.length) = ⟨k, hkl⟩ :=
    (List.Nodup.get_inj_iff hnd).mp (hjget.trans hkget.symm)
  have hjk : j = k := by injection this
  exact ⟨i, w, by omega, hi, hw⟩

lemma Before.irrefl {l : List String} (hnd : l.Nodup) {a : String}
    (h : Before l a a) : False := by
  obtain ⟨i, j, hij, hi, hj⟩ := h
  obtain ⟨hil, higet⟩ := List.get?_eq_some.mp hi
  obtain ⟨hjl, hjget⟩ := List.get?_eq_some.mp hj
  have : (⟨i, hil⟩ : Fin l.length) = ⟨j, hjl⟩ :=
    (List.Nodup.get_inj_iff hnd).mp (higet.trans hjget.symm)
  have : i = j := by injection this
  omega

/-! ### The Kahn loop invariant -/

/-- Invariant of `kahnLoop` relative to edge list `E` and node list `ids`:
`res` are the popped nodes (in pop order), `queue` the ready nodes, `indeg`
counts, per node, the edges whose source is not yet popped; queue members
are exactly the unpopped nodes of degree zero, and every edge whose target
is popped has its source popped strictly earlier. -/
structure KInv (E : List (String × String)) (ids : List String)
    (indeg : String → Nat) (queue res : List String) : Prop where
  res_nodup : res.Nodup
  res_sub : ∀ x ∈ res, x ∈ ids
  queue_nodup : queue.Nodup
  queue_sub : ∀ x ∈ queue, x ∈ ids
  queue_res : ∀ x ∈ queue, x ∉ res
  indeg_eq : ∀ x, indeg x = countIn E res x
  zero_iff : ∀ x ∈ ids, x ∉ res → (indeg x = 0 ↔ x ∈ queue)
  sound : ∀ e ∈ E, e.2 ∈ res → Before res e.1 e.2

lemma KInv.res_countIn_zero {E : List (String × String)} {ids : List String}
    {indeg : String → Nat} {queue res : List String}
    (h : KInv E ids indeg queue res) : ∀ x ∈ res, indeg x = 0 := by
  intro x hx
  rw [h.indeg_eq, countIn, List.countP_eq_zero]
  intro e he
  by_cases h2 : e.2 = x
  · have hb := h.sound e he (h2 ▸ hx)
    have : e.1 ∈ res := hb.mem_left
    simp [this]
  · simp [h2]

/-- Full behavioural spec of `processNeighbors`, by induction on the
neighbor list: final degrees drop by the neighbor multiplicity, and the
queue gains exactly the nodes whose degree transitions to zero. -/
lemma processNeighbors_spec :
    ∀ (nbrs : List String) (indeg : String → Nat) (q : List String),
      (∀ x, nbrs.count x ≤ indeg x) →
      (∀ x ∈ q, indeg x = 0) →
      q.Nodup →
      (∀ x, (processNeighbors nbrs indeg q).1 x = indeg x - nbrs.count x) ∧
      (∀ x, x ∈ (processNeighbors nbrs indeg q).2 ↔
        x ∈ q ∨ (0 < indeg x ∧ indeg x ≤ nbrs.count x)) ∧
      (∀ x ∈ (processNeighbors nbrs indeg q).2, (processNeighbors nbrs indeg q).1 x = 0) ∧
      (processNeighbors nbrs indeg q).2.Nodup := by
  intro nbrs
  induction nbrs with
  | nil =>
    intro indeg q hcnt hq0 hqnd
    refine ⟨fun x => by simp [processNeighbors], fun x => ?_, fun x hx => ?_, hqnd⟩
    · simp only [processNeighbors, List.foldl_nil, List.count_nil]
      constructor
      · exact Or.inl
      · rintro (hx | ⟨h1, h2⟩)
        · exact hx
        · omega
    · simp only [processNeighbors, List.foldl_nil] at hx ⊢
      exact hq0 x hx
  | cons nb rest ih =>
    intro indeg q hcnt hq0 hqnd
    have hnb1 : 1 ≤ indeg nb := by
      have := hcnt nb
      rw [List.count_cons_self] at this
      omega
    have hnbq : nb ∉ q := fun hmem => by
      have := hq0 nb hmem
      omega
    set indeg1 : String → Nat := fun y => if y = nb then indeg nb - 1 else indeg y with hindeg1
    set q1 : List String := if indeg nb - 1 = 0 then nb :: q else q with hq1
    have hunfold : processNeighbors (nb :: rest) indeg q = processNeighbors rest indeg1 q1 := by
      by_cases hd : indeg nb - 1 = 0 <;>
        simp only [processNeighbors, List.foldl_cons, hindeg1, hq1, if_pos, if_neg, hd,
          if_true, if_false]
    have hcnt1 : ∀ x, rest.count x ≤ indeg1 x := by
      intro x
      by_cases hx : x = nb
      · subst hx
        have := hcnt x
        rw [List.count_cons_self] at this
        simp only [hindeg1, if_pos rfl]
        omega
      · have := hcnt x
        rw [List.count_cons_of_ne hx] at this
        simpa [hindeg1, hx] using this
    have hq01 : ∀ x ∈ q1, indeg1 x = 0 := by
      intro x hx
      by_cases hd : indeg nb - 1 = 0
      · rw [hq1, if_pos hd] at hx
        rcases List.mem_cons.mp hx with rfl | hx
        · simp [hindeg1, hd]
        · have hxnb : x ≠ nb := fun h => hnbq (h ▸ hx)
          simp only [hindeg1, if_neg hxnb]
          exact hq0 x hx
      · rw [hq1, if_neg hd] at hx
        have hxnb : x ≠ nb := fun h => hnbq (h ▸ hx)
        simp only [hindeg1, if_neg hxnb]
        exact hq0 x hx
    have hqnd1 : q1.Nodup := by
      by_cases hd : indeg nb - 1 = 0
      · rw [hq1, if_pos hd]
        exact List.Nodup.cons hnbq hqnd
      · rw [hq1, if_neg hd]
        exact hqnd
    obtain ⟨ih1, ih2, ih3, ih4⟩ := ih indeg1 q1 hcnt1 hq01 hqnd1
    rw [hunfold]
    refine ⟨fun x => ?_, fun x => ?_, ih3, ih4⟩
    · rw [ih1 x]
      by_cases hx : x = nb
      · subst hx
        rw [List.count_cons_self]
        simp only [hindeg1, if_pos rfl]
        omega
      · rw [List.count_cons_of_ne hx]
        simp [hindeg1, hx]
    · rw [ih2 x]
      by_cases hx : x = nb
      · subst hx
        rw [List.count_cons_self]
        simp only [hindeg1, if_pos rfl]
        by_cases hd : indeg x - 1 = 0
        · rw [hq1, if_pos hd]
          simp only [List.mem_cons, true_or, true_iff]
          right
          omega
        · rw [hq1, if_neg hd]
          constructor
          · rintro (hmem | ⟨h1, h2⟩)
            · exact absurd hmem hnbq
            · exact Or.inr ⟨by omega, by omega⟩
          · rintro (hmem | ⟨h1, h2⟩)
            · exact absurd hmem hnbq
            · exact Or.inr ⟨by omega, by omega⟩
      · rw [List.count_cons_of_ne hx]
        simp only [hindeg1, if_neg hx]
        by_cases hd : indeg nb - 1 = 0
        · rw [hq1, if_pos hd]
          simp [List.mem_cons, hx]
        · rw [hq1, if_neg hd]

/-- One iteration of the Kahn loop preserves the invariant, appending the
popped node to the result. -/
lemma kahn_step {E : List (String × String)} {ids : List String}
    {indeg : String → Nat} {cur : String} {rest res : List String}
    (hEwf : ∀ e ∈ E, e.1 ∈ ids ∧ e.2 ∈ ids)
    (hinv : KInv E ids indeg (cur :: rest) res) :
    KInv E ids (processNeighbors (gOf E cur) indeg rest).1
      (processNeighbors (gOf E cur) indeg rest).2 (res ++ [cur]) := by
  have hcurq : cur ∈ cur :: rest := List.mem_cons_self _ _
  have hcur_res : cur ∉ res := hinv.queue_res cur hcurq
  have hcur_ids : cur ∈ ids := hinv.queue_sub cur hcurq
  have hcur_deg : indeg cur = 0 :=
    (hinv.zero_iff cur hcur_ids hcur_res).mpr hcurq
  have hcur_rest : cur ∉ rest := (List.nodup_cons.mp hinv.queue_nodup).1
  have hrest_nd : rest.Nodup := (List.nodup_cons.mp hinv.queue_nodup).2
  -- the edges out of cur all count into the current degrees
  have hcnt : ∀ x, (gOf E cur).count x ≤ indeg x := by
    intro x
    rw [count_gOf, hinv.indeg_eq, countIn]
    apply List.countP_mono_left
    intro e _ he
    have h2 : e.2 = x := by
      have := (Bool.and_eq_true _ _).mp he
      exact eq_of_beq this.1
    have h1 : e.1 = cur := by
      have := (Bool.and_eq_true _ _).mp he
      exact eq_of_beq this.2
    simp [h1, h2, hcur_res]
  have hq0 : ∀ x ∈ rest, indeg x = 0 := fun x hx =>
    (hinv.zero_iff x (hinv.queue_sub x (List.mem_cons_of_mem _ hx))
      (hinv.queue_res x (List.mem_cons_of_mem _ hx))).mpr (List.mem_cons_of_mem _ hx)
  obtain ⟨hs1, hs2, hs3, hs4⟩ := processNeighbors_spec (gOf E cur) indeg rest hcnt hq0 hrest_nd
  -- edges into cur come from res
  have hsrc_res : ∀ e ∈ E, e.2 = cur → e.1 ∈ res := by
    intro e he h2
    have h0 : countIn E res cur = 0 := by rw [← hinv.indeg_eq]; exact hcur_deg
    rw [countIn, List.countP_eq_zero] at h0
    have := h0 e he
    by_contra hnot
    simp [h2, hnot] at this
  -- degree positivity forces membership in ids
  have hpos_ids : ∀ x, 0 < indeg x → x ∈ ids := by
    intro x hpos
    rw [hinv.indeg_eq, countIn] at hpos
    obtain ⟨e, he, hpe⟩ := List.countP_pos_iff.mp hpos
    have h2 : e.2 = x := eq_of_beq ((Bool.and_eq_true _ _).mp hpe).1
    exact h2 ▸ (hEwf e he).2
  have hpos_not_res : ∀ x, 0 < indeg x → x ∉ res := by
    intro x hpos hx
    have := hinv.res_countIn_zero x hx
    omega
  refine ⟨?_, ?_, hs4, ?_, ?_, ?_, ?_, ?_⟩
  · simp [List.nodup_append, hinv.res_nodup, hcur_res]
  · intro x hx
    rcases List.mem_append.mp hx with hx | hx
    · exact hinv.res_sub x hx
    · rw [List.mem_singleton.mp hx]; exact hcur_ids
  · intro x hx
    rcases (hs2 x).mp hx with hx | ⟨hpos, _⟩
    · exact hinv.queue_sub x (List.mem_cons_of_mem _ hx)
    · exact hpos_ids x hpos
  · intro x hx hmem
    rcases (hs2 x).mp hx with hx | ⟨hpos, _⟩
    · rcases List.mem_append.mp hmem with hm | hm
      · exact hinv.queue_res x (List.mem_cons_of_mem _ hx) hm
      · rw [List.mem_singleton.mp hm] at hx; exact hcur_rest hx
    · rcases List.mem_append.mp hmem with hm | hm
      · exact hpos_not_res x hpos hm
      · rw [List.mem_singleton.mp hm] at hpos; omega
  · intro x
    rw [hs1 x, count_gOf, hinv.indeg_eq, countIn]
    have hsplit := countP_and_split
      (fun e => e.2 == x && !(decide (e.1 ∈ res))) (fun e => e.1 == cur) E
    have he1 : E.countP (fun e => (e.2 == x && !(decide (e.1 ∈ res))) && e.1 == cur) =
        E.countP (fun e => e.2 == x && e.1 == cur) := by
      apply List.countP_congr
      intro e _
      by_cases h1 : e.1 = cur
      · simp [h1, hcur_res]
      · simp [h1]
    have he2 : E.countP (fun e => (e.2 == x && !(decide (e.1 ∈ res))) && !(e.1 == cur)) =
        countIn E (res ++ [cur]) x := by
      rw [countIn]
      apply List.countP_congr
      intro e _
      by_cases h1 : e.1 = cur
      · simp [h1, List.mem_append]
      · by_cases hr : e.1 ∈ res <;> simp [h1, hr, List.mem_append]
    rw [he1, he2] at hsplit
    omega
  · intro x hxids hxres'
    have hxres : x ∉ res := fun h => hxres' (List.mem_append.mpr (Or.inl h))
    have hxcur : x ≠ cur := fun h => hxres' (List.mem_append.mpr (Or.inr (by simp [h])))
    constructor
    · intro hz
      rw [hs1 x] at hz
      by_cases h0 : indeg x = 0
      · have hq := (hinv.zero_iff x hxids hxres).mp h0
        rcases List.mem_cons.mp hq with h | h
        · exact absurd h hxcur
        · exact (hs2 x).mpr (Or.inl h)
      · exact (hs2 x).mpr (Or.inr ⟨by omega, by omega⟩)
    · exact hs3 x
  · intro e he hmem
    rcases List.mem_append.mp hmem with hm | hm
    · exact (hinv.sound e he hm).mono_append res [cur] e.1 e.2
    · have h2 : e.2 = cur := List.mem_singleton.mp hm
      have h1 : e.1 ∈ res := hsrc_res e he h2
      rw [h2]
      exact before_of_mem_append res e.1 cur h1 hcur_res

/-- Running the Kahn loop from an invariant state with ample fuel reaches a
state whose queue is empty, extending the result. -/
lemma kahn_run {E : List (String × String)} {ids : List String}
    (hEwf : ∀ e ∈ E, e.1 ∈ ids ∧ e.2 ∈ ids) :
    ∀ (fuel : Nat) (indeg : String → Nat) (queue res : List String),
      KInv E ids indeg queue res →
      ids.length < res.length + fuel →
      ∃ indeg' res', kahnLoop (gOf E) fuel indeg queue res = res' ∧
        res <+: res' ∧ KInv E ids indeg' [] res' := by
  intro fuel
  induction fuel with
  | zero =>
    intro indeg queue res hinv hlen
    have : res.length ≤ ids.length :=
      ((List.subperm_of_subset hinv.res_nodup) (fun x hx => hinv.res_sub x hx)).length_le
    omega
  | succ n ih =>
    intro indeg queue res hinv hlen
    cases queue with
    | nil =>
      exact ⟨indeg, res, rfl, List.prefix_refl res, hinv⟩
    | cons cur rest =>
      have hstep := kahn_step hEwf hinv
      obtain ⟨indeg', res', heq, hpre, hinv'⟩ :=
        ih (processNeighbors (gOf E cur) indeg rest).1
          (processNeighbors (gOf E cur) indeg rest).2 (res ++ [cur]) hstep
          (by simp only [List.length_append, List.length_cons, List.length_nil]; omega)
      refine ⟨indeg', res', ?_, ?_, hinv'⟩
      · simp only [kahnLoop]
        exact heq
      · exact List.IsPrefix.trans (List.prefix_append res [cur]) hpre

lemma findModule_name {m : SproutManifest} {d : String} {p : ModuleBlock}
    (h : findModule m d = some p) : p.name = d := by
  rw [findModule] at h
  exact eq_of_beq (@List.find?_some ModuleBlock (fun q => q.name == d) p m.modules h)

lemma findModule_mem {m : SproutManifest} {d : String} {p : ModuleBlock}
    (h : findModule m d = some p) : p ∈ m.modules := by
  rw [findModule] at h
  exact List.mem_of_find?_eq_some h

/-- Under resolvable dependencies, the edge-construction loop succeeds and
produces exactly `edgesOf m`. -/
lemma buildEdges_ok (m : SproutManifest)
    (hres : ∀ p ∈ m.modules, ∀ d ∈ p.depends_on, (findModule m d).isSome) :
    buildEdges m = .ok (edgesOf m) := by
  rw [buildEdges, edgesOf]
  have inner : ∀ (pkg : ModuleBlock) (ds : List String),
      (∀ d ∈ ds, (findModule m d).isSome) → ∀ es : List (String × String),
      ds.foldl
        (fun (acc2 : Except String (List (String × String))) dep =>
          match acc2 with
          | Except.error e => Except.error e
          | Except.ok es2 =>
            match findModule m dep with
            | some p => Except.ok (es2 ++ [(p.name, pkg.id)])
            | none => Except.error ("Dependency not found: " ++ dep))
        (Except.ok es) =
      Except.ok (es ++ ds.map (fun dep => (dep, pkg.name))) := by
    intro pkg ds
    induction ds with
    | nil => intro _ es; simp
    | cons d ds ihd =>
      intro hds es
      have hd := hds d (List.mem_cons_self _ _)
      obtain ⟨p, hp⟩ := Option.isSome_iff_exists.mp hd
      have hpname : p.name = d := findModule_name hp
      simp only [List.foldl_cons, hp]
      rw [ihd (fun d hd => hds d (List.mem_cons_of_mem _ hd)) (es ++ [(p.name, pkg.id)])]
      simp [hpname, ModuleBlock.id]
  -- outer fold over the modules
  suffices h : ∀ (ms : List ModuleBlock), (∀ p ∈ ms, p ∈ m.modules) →
      ∀ es : List (String × String),
      ms.foldl
        (fun (acc : Except String (List (String × String))) pkg =>
          match acc with
          | Except.error e => Except.error e
          | Except.ok es =>
            pkg.depends_on.foldl
              (fun (acc2 : Except String (List (String × String))) dep =>
                match acc2 with
                | Except.error e => Except.error e
                | Except.ok es2 =>
                  match findModule m dep with
                  | some p => Except.ok (es2 ++ [(p.name, pkg.id)])
                  | none => Except.error ("Dependency not found: " ++ dep))
              (Except.ok es))
        (Except.ok es) =
      Except.ok (es ++ ms.flatMap (fun pkg => pkg.depends_on.map (fun dep => (dep, pkg.name)))) by
    simpa using h m.modules (fun p hp => hp) []
  intro ms
  induction ms with
  | nil => intro _ es; simp
  | cons pkg ms ihm =>
    intro hsub es
    simp only [List.foldl_cons]
    rw [inner pkg pkg.depends_on (hres pkg (hsub pkg (List.mem_cons_self _ _))) es]
    rw [ihm (fun p hp => hsub p (List.mem_cons_of_mem _ hp))]
    simp

/-- Every edge endpoint names a module (under resolvable dependencies). -/
lemma edges_endpoints (m : SproutManifest)
    (hres : ∀ p ∈ m.modules, ∀ d ∈ p.depends_on, (findModule m d).isSome) :
    ∀ e ∈ edgesOf m, e.1 ∈ moduleIds m ∧ e.2 ∈ moduleIds m := by
  intro e he
  rw [edgesOf, List.mem_flatMap] at he
  obtain ⟨pkg, hpkg, he⟩ := he
  rw [List.mem_map] at he
  obtain ⟨dep, hdep, he⟩ := he
  subst he
  constructor
  · obtain ⟨q, hq⟩ := Option.isSome_iff_exists.mp (hres pkg hpkg dep hdep)
    have hqname : q.name = dep := findModule_name hq
    have hqmem : q ∈ m.modules := findModule_mem hq
    rw [moduleIds, List.mem_map]
    exact ⟨q, hqmem, hqname⟩
  · rw [moduleIds, List.mem_map]
    exact ⟨pkg, hpkg, rfl⟩

/-- In a finite nonempty set where every element has an `R`-predecessor in
the set, `R` has a cycle (pigeonhole along an infinite predecessor walk). -/
lemma cycle_of_all_have_pred {R : String → String → Prop} (U : List String)
    (hne : U ≠ []) (hpred : ∀ x ∈ U, ∃ y, y ∈ U ∧ R y x) :
    ∃ a, Relation.TransGen R a a := by
  classical
  have hx0 : U.head hne ∈ U := List.head_mem hne
  let f : {x // x ∈ U} → {x // x ∈ U} := fun s =>
    ⟨(hpred s.1 s.2).choose, (hpred s.1 s.2).choose_spec.1⟩
  have hRf : ∀ s, R (f s).1 s.1 := fun s => (hpred s.1 s.2).choose_spec.2
  let seq : Nat → {x // x ∈ U} := fun n => f^[n] ⟨U.head hne, hx0⟩
  have hsucc : ∀ n, seq (n + 1) = f (seq n) := fun n =>
    Function.iterate_succ_apply' f n _
  have hchain : ∀ n k, Relation.TransGen R (seq (n + k + 1)).1 (seq n).1 := by
    intro n k
    induction k with
    | zero =>
      rw [hsucc n]
      exact Relation.TransGen.single (hRf (seq n))
    | succ k ihk =>
      have harith : n + (k + 1) + 1 = (n + k + 1) + 1 := by omega
      rw [harith, hsucc (n + k + 1)]
      exact Relation.TransGen.head (hRf (seq (n + k + 1))) ihk
  have hcard : U.toFinset.card < (Finset.univ : Finset (Fin (U.length + 1))).card := by
    have h1 : U.toFinset.card ≤ U.length := List.toFinset_card_le U
    simp only [Finset.card_univ, Fintype.card_fin]
    omega
  obtain ⟨i, _, j, _, hij, hgij⟩ :=
    Finset.exists_ne_map_eq_of_card_lt_of_maps_to hcard
      (fun (i : Fin (U.length + 1)) _ => List.mem_toFinset.mpr (seq i.1).2)
  rcases Ne.lt_or_lt hij with hlt | hlt
  · refine ⟨(seq i.1).1, ?_⟩
    have harith : i.1 + (j.1 - i.1 - 1) + 1 = j.1 := by omega
    have := hchain i.1 (j.1 - i.1 - 1)
    rw [harith] at this
    rwa [show (seq j.1).1 = (seq i.1).1 from hgij.symm] at this
  · refine ⟨(seq j.1).1, ?_⟩
    have harith : j.1 + (i.1 - j.1 - 1) + 1 = i.1 := by omega
    have := hchain j.1 (i.1 - j.1 - 1)
    rw [harith] at this
    rwa [show (seq i.1).1 = (seq j.1).1 from hgij] at this

/-- Monotone rank functions certify acyclicity. -/
lemma acyclic_of_rank {R : String → String → Prop} (f : String → Nat)
    (hf : ∀ x y, R x y → f x < f y) : ∀ a, ¬ Relation.TransGen R a a := by
  have key : ∀ x y, Relation.TransGen R x y → f x < f y := by
    intro x y h
    induction h with
    | single h1 => exact hf _ _ h1
    | tail _ h2 ih => exact lt_trans ih (hf _ _ h2)
  intro a ha
  exact lt_irrefl _ (key a a ha)

/-- Running the embedded resolver under unique ids and resolvable deps:
there is a final invariant state whose popped list decides the outcome. -/
lemma resolve_run (m : SproutManifest)
    (hnd : (moduleIds m).Nodup)
    (hres : ∀ p ∈ m.modules, ∀ d ∈ p.depends_on, (findModule m d).isSome) :
    ∃ indeg' res', KInv (edgesOf m) (moduleIds m) indeg' [] res' ∧
      resolve_dependency_order m =
        (if res'.length = m.modules.length
         then .ok (res'.filterMap (fun i => findModule m i))
         else .error "Circular dependency detected") := by
  have hE := buildEdges_ok m hres
  have hEwf := edges_endpoints m hres
  have hdedup : (moduleIds m).dedup = moduleIds m := List.dedup_eq_self.mpr hnd
  have hinit : KInv (edgesOf m) (moduleIds m) (indegOf (edgesOf m))
      ((moduleIds m).filter (fun x => indegOf (edgesOf m) x == 0)) [] := by
    refine ⟨List.nodup_nil, by simp, hnd.filter _,
      fun x hx => (List.mem_filter.mp hx).1, by simp,
      fun x => indegOf_eq_countIn_nil (edgesOf m) x, ?_, by simp⟩
    intro x hxids _
    rw [List.mem_filter]
    constructor
    · intro h0
      exact ⟨hxids, by simp [h0]⟩
    · rintro ⟨_, h⟩
      simpa using h
  obtain ⟨indeg', res', heq, _, hinv'⟩ :=
    kahn_run hEwf (m.modules.length + 1) (indegOf (edgesOf m))
      ((moduleIds m).filter (fun x => indegOf (edgesOf m) x == 0)) [] hinit
      (by simp [moduleIds])
  refine ⟨indeg', res', hinv', ?_⟩
  rw [resolve_dependency_order]
  rw [hE]
  simp only [hdedup]
  rw [heq]

/-- Under resolvable dependencies every identifier of the manifest can be
looked up, and mapping the lookup over a list of module ids recovers it. -/
lemma filterMap_findModule_names (m : SproutManifest) :
    ∀ (l : List String), (∀ x ∈ l, x ∈ moduleIds m) →
      (l.filterMap (fun i => findModule m i)).map ModuleBlock.name = l := by
  intro l
  induction l with
  | nil => intro _; rfl
  | cons x xs ih =>
    intro hsub
    have hx : x ∈ moduleIds m := hsub x (List.mem_cons_self _ _)
    rw [moduleIds, List.mem_map] at hx
    obtain ⟨p, hp, hname⟩ := hx
    have hsome : (findModule m x).isSome := by
      rw [findModule]
      cases hfind : m.modules.find? (fun q => q.name == x) with
      | some _ => simp
      | none =>
        rw [List.find?_eq_none] at hfind
        exact absurd (by simp [hname]) (hfind p hp)
    obtain ⟨q, hq⟩ := Option.isSome_iff_exists.mp hsome
    simp only [List.filterMap_cons, hq, List.map_cons, findModule_name hq]
    rw [ih (fun y hy => hsub y (List.mem_cons_of_mem _ hy))]

/-- Acyclic manifests resolve to a permutation of all modules in an order
placing every dependency before its dependents. -/
lemma resolve_ok_of_acyclic (m : SproutManifest)
    (hnd : (moduleIds m).Nodup)
    (hres : ∀ p ∈ m.modules, ∀ d ∈ p.depends_on, (findModule m d).isSome)
    (hacyc : ∀ a, ¬ Relation.TransGen (DepEdge m) a a) :
    ∃ l, resolve_dependency_order m = .ok l ∧
      (l.map ModuleBlock.name).Perm (moduleIds m) ∧
      ∀ a b, DepEdge m a b → Before (l.map ModuleBlock.name) a b := by
  obtain ⟨indeg', res', hinv', hresolve⟩ := resolve_run m hnd hres
  have hEwf := edges_endpoints m hres
  have hsubperm : List.Subperm res' (moduleIds m) :=
    List.subperm_of_subset hinv'.res_nodup (fun x hx => hinv'.res_sub x hx)
  have hlen_le : res'.length ≤ (moduleIds m).length := hsubperm.length_le
  have hids_len : (moduleIds m).length = m.modules.length := by simp [moduleIds]
  have hlen : res'.length = m.modules.length := by
    by_contra hne
    have hlt : res'.length < (moduleIds m).length := by omega
    have hmissing : ∃ x ∈ moduleIds m, x ∉ res' := by
      by_contra hall
      push_neg at hall
      have : (moduleIds m).length ≤ res'.length :=
        (List.subperm_of_subset hnd hall).length_le
      omega
    obtain ⟨x0, hx0ids, hx0res⟩ := hmissing
    have hUpred : ∀ x ∈ (moduleIds m).filter (fun y => !(decide (y ∈ res'))),
        ∃ y, y ∈ (moduleIds m).filter (fun y => !(decide (y ∈ res'))) ∧ DepEdge m y x := by
      intro x hx
      obtain ⟨hxids, hxdec⟩ := List.mem_filter.mp hx
      have hxres : x ∉ res' := by simpa using hxdec
      have hne0 : indeg' x ≠ 0 := by
        intro h0
        have := (hinv'.zero_iff x hxids hxres).mp h0
        simp at this
      rw [hinv'.indeg_eq, countIn] at hne0
      obtain ⟨e, he, hpe⟩ := List.countP_pos_iff.mp (Nat.pos_of_ne_zero hne0)
      have h2 : e.2 = x := eq_of_beq ((Bool.and_eq_true _ _).mp hpe).1
      have h1 : e.1 ∉ res' := by
        have := ((Bool.and_eq_true _ _).mp hpe).2
        simpa using this
      refine ⟨e.1, List.mem_filter.mpr ⟨(hEwf e he).1, by simpa using h1⟩, ?_⟩
      show (e.1, x) ∈ edgesOf m
      rw [← h2]
      exact he
    obtain ⟨a, ha⟩ := cycle_of_all_have_pred _
      (List.ne_nil_of_mem (List.mem_filter.mpr ⟨hx0ids, by simpa using hx0res⟩)) hUpred
    exact hacyc a ha
  rw [if_pos hlen] at hresolve
  refine ⟨res'.filterMap (fun i => findModule m i), hresolve, ?_, ?_⟩
  · rw [filterMap_findModule_names m res' (fun x hx => hinv'.res_sub x hx)]
    exact hsubperm.perm_of_length_le (by omega)
  · intro a b hedge
    rw [filterMap_findModule_names m res' (fun x hx => hinv'.res_sub x hx)]
    have hperm : res'.Perm (moduleIds m) := hsubperm.perm_of_length_le (by omega)
    have hbmem : b ∈ res' := hperm.mem_iff.mpr (hEwf (a, b) hedge).2
    exact hinv'.sound (a, b) hedge hbmem

/-- Cyclic manifests are rejected with the circular-dependency error. -/
lemma resolve_err_of_cycle (m : SproutManifest)
    (hnd : (moduleIds m).Nodup)
    (hres : ∀ p ∈ m.modules, ∀ d ∈ p.depends_on, (findModule m d).isSome)
    (a : String) (hcyc : Relation.TransGen (DepEdge m) a a) :
    resolve_dependency_order m = .error "Circular dependency detected" := by
  obtain ⟨indeg', res', hinv', hresolve⟩ := resolve_run m hnd hres
  have hEwf := edges_endpoints m hres
  rw [hresolve, if_neg]
  intro hlen
  have hsubperm : List.Subperm res' (moduleIds m) :=
    List.subperm_of_subset hinv'.res_nodup (fun x hx => hinv'.res_sub x hx)
  have hids_len : (moduleIds m).length = m.modules.length := by simp [moduleIds]
  have hperm : res'.Perm (moduleIds m) := hsubperm.perm_of_length_le (by omega)
  have hbefore : ∀ x y, Relation.TransGen (DepEdge m) x y → Before res' x y := by
    intro x y h
    induction h with
    | single h1 =>
      exact hinv'.sound (x, _) h1 (hperm.mem_iff.mpr (hEwf (x, _) h1).2)
    | tail _ h2 ih =>
      exact Before.trans hinv'.res_nodup ih
        (hinv'.sound (_, _) h2 (hperm.mem_iff.mpr (hEwf (_, _) h2).2))
  exact Before.irrefl hinv'.res_nodup (hbefore a a hcyc)

/-- C3: for a manifest with unique module identifiers whose dependency
identifiers all resolve, acyclicity of the dependency graph makes
`resolve_dependency_order` return an ordering of all modules in which every
dependency appears strictly before each of its dependents, and a cycle makes
it return the circular-dependency error (an `Except.error`, so no partial
order is returned). -/
theorem c3_topological_resolution (m : SproutManifest)
    (hnd : (moduleIds m).Nodup)
    (hres : ∀ p ∈ m.modules, ∀ d ∈ p.depends_on, (findModule m d).isSome) :
    ((∀ a, ¬ Relation.TransGen (DepEdge m) a a) →
      ∃ l, resolve_dependency_order m = .ok l ∧
        (l.map ModuleBlock.name).Perm (moduleIds m) ∧
        ∀ a b, DepEdge m a b → Before (l.map ModuleBlock.name) a b) ∧
    ((∃ a, Relation.TransGen (DepEdge m) a a) →
      resolve_dependency_order m = .error "Circular dependency detected") :=
  ⟨resolve_ok_of_acyclic m hnd hres,
   fun h => resolve_err_of_cycle m hnd hres h.choose h.choose_spec⟩

/-- Witness for `c3_topological_resolution` on the spec's two-module
scenario (`b` depends on `a`). -/
theorem c3_topological_resolution_witness :
    ∃ l, resolve_dependency_order
        ⟨[⟨"a", [], [], none, none, none⟩, ⟨"b", ["a"], [], none, none, none⟩], none⟩ = .ok l ∧
      (l.map ModuleBlock.name).Perm
        (moduleIds ⟨[⟨"a", [], [], none, none, none⟩, ⟨"b", ["a"], [], none, none, none⟩], none⟩) ∧
      ∀ x y, DepEdge ⟨[⟨"a", [], [], none, none, none⟩, ⟨"b", ["a"], [], none, none, none⟩], none⟩ x y →
        Before (l.map ModuleBlock.name) x y :=
  (c3_topological_resolution _ (by decide) (by decide)).1
    (acyclic_of_rank (fun s => if s = "a" then 0 else 1) (by
      intro x y hxy
      simp only [DepEdge, edgesOf, List.flatMap_cons, List.map_nil, List.map_cons,
        List.flatMap_nil, List.nil_append, List.append_nil, List.mem_cons,
        List.not_mem_nil, or_false, Prod.mk.injEq] at hxy
      obtain ⟨rfl, rfl⟩ := hxy
      decide))

/-- C9: duplicate entries in `depends_on` have no additional effect — an
otherwise-acyclic manifest (duplicates permitted) still resolves, with every
module appearing exactly once — while a module depending on itself makes the
resolver return the circular-dependency error. -/
theorem c9_duplicates_and_self_reference (m : SproutManifest)
    (hnd : (moduleIds m).Nodup)
    (hres : ∀ p ∈ m.modules, ∀ d ∈ p.depends_on, (findModule m d).isSome) :
    ((∀ a, ¬ Relation.TransGen (DepEdge m) a a) →
      ∃ l, resolve_dependency_order m = .ok l ∧
        ∀ p ∈ m.modules, (l.map ModuleBlock.name).count p.name = 1) ∧
    (∀ p ∈ m.modules, p.name ∈ p.depends_on →
      resolve_dependency_order m = .error "Circular dependency detected") := by
  constructor
  · intro hacyc
    obtain ⟨l, hok, hperm, _⟩ := resolve_ok_of_acyclic m hnd hres hacyc
    refine ⟨l, hok, fun p hp => ?_⟩
    have hnodup : (l.map ModuleBlock.name).Nodup := hperm.nodup_iff.mpr hnd
    have hmem : p.name ∈ l.map ModuleBlock.name :=
      hperm.mem_iff.mpr (List.mem_map.mpr ⟨p, hp, rfl⟩)
    exact List.count_eq_one_of_mem hnodup hmem
  · intro p hp hself
    apply resolve_err_of_cycle m hnd hres p.name
    apply Relation.TransGen.single
    show (p.name, p.name) ∈ edgesOf m
    rw [edgesOf, List.mem_flatMap]
    exact ⟨p, hp, List.mem_map.mpr ⟨p.name, hself, rfl⟩⟩

/-- Witness for `c9_duplicates_and_self_reference`: `b` lists `a` twice in
`depends_on`, and the manifest still resolves with each module once. -/
theorem c9_duplicates_and_self_reference_witness :
    ∃ l, resolve_dependency_order
        ⟨[⟨"a", [], [], none, none, none⟩, ⟨"b", ["a", "a"], [], none, none, none⟩], none⟩ = .ok l ∧
      ∀ p ∈ (⟨[⟨"a", [], [], none, none, none⟩,
          ⟨"b", ["a", "a"], [], none, none, none⟩], none⟩ : SproutManifest).modules,
        (l.map ModuleBlock.name).count p.name = 1 :=
  (c9_duplicates_and_self_reference _ (by decide) (by decide)).1
    (acyclic_of_rank (fun s => if s = "a" then 0 else 1) (by
      intro x y hxy
      simp only [DepEdge, edgesOf, List.flatMap_cons, List.map_nil, List.map_cons,
        List.flatMap_nil, List.nil_append, List.append_nil, List.mem_cons,
        List.not_mem_nil, or_false, Prod.mk.injEq] at hxy
      rcases hxy with ⟨rfl, rfl⟩ | ⟨rfl, rfl⟩ <;> decide))

/-! ## Dependency closure correctness (C5)

`get_all_dependencies` performs the post-order depth-first traversal of
`visit_dependencies`.  On acyclic, fully-resolvable manifests it terminates
and returns exactly the reachable set in dependency-first order. -/

/-- `a`'s module declares a dependency on `b` (traversal step relation). -/
def DepStep (m : SproutManifest) (a b : String) : Prop :=
  ∃ p, findModule m a = some p ∧ b ∈ p.depends_on

/-- `b` is transitively required by `a` (including `a` itself). -/
def Reach (m : SproutManifest) (a b : String) : Prop :=
  Relation.ReflTransGen (DepStep m) a b

/-- Invariant of the DFS state: visited equals the result as a set, the
result is duplicate-free, contains only module names, and is
dependency-closed with every dependency placed before its dependent. -/
def DfsInv (m : SproutManifest) (v r : List String) : Prop :=
  (∀ x, x ∈ v ↔ x ∈ r) ∧ r.Nodup ∧
  (∀ x ∈ r, (findModule m x).isSome) ∧
  (∀ x ∈ r, ∀ p, findModule m x = some p →
    ∀ d ∈ p.depends_on, d ∈ r ∧ Before r d x)

/-- Behavioural spec of one `visitDeps` call. -/
def VisitSpec (m : SproutManifest) (fuel : Nat) : Prop :=
  ∀ a v r v' r', DfsInv m v r →
    visitDeps m fuel a v r = some (v', r') →
    DfsInv m v' r' ∧ r <+: r' ∧ (∀ x ∈ r', x ∈ r ∨ Reach m a x) ∧
    ((findModule m a).isSome → a ∈ r')

/-- Behavioural spec of the dependency-list loop. -/
def VisitListSpec (m : SproutManifest) (fuel : Nat) : Prop :=
  ∀ ds v r v' r', DfsInv m v r →
    visitDepsList m fuel ds v r = some (v', r') →
    DfsInv m v' r' ∧ r <+: r' ∧ (∀ x ∈ r', x ∈ r ∨ ∃ d ∈ ds, Reach m d x) ∧
    (∀ d ∈ ds, (findModule m d).isSome → d ∈ r')

lemma visitListSpec_of_visitSpec (m : SproutManifest) (fuel : Nat)
    (hP : VisitSpec m fuel) : VisitListSpec m fuel := by
  intro ds
  induction ds with
  | nil =>
    intro v r v' r' hinv hout
    simp only [visitDepsList] at hout
    cases hout
    exact ⟨hinv, List.prefix_refl r, fun x hx => Or.inl hx, by simp⟩
  | cons d ds ih =>
    intro v r v' r' hinv hout
    simp only [visitDepsList] at hout
    cases h1 : visitDeps m fuel d v r with
    | none => rw [h1] at hout; cases hout
    | some vr =>
      rw [h1] at hout
      obtain ⟨v1, r1⟩ := vr
      obtain ⟨hinv1, hpre1, hnew1, hmem1⟩ := hP d v r v1 r1 hinv h1
      obtain ⟨hinv2, hpre2, hnew2, hmem2⟩ := ih v1 r1 v' r' hinv1 hout
      refine ⟨hinv2, hpre1.trans hpre2, ?_, ?_⟩
      · intro x hx
        rcases hnew2 x hx with hx1 | ⟨d', hd', hr⟩
        · rcases hnew1 x hx1 with hx0 | hr
          · exact Or.inl hx0
          · exact Or.inr ⟨d, List.mem_cons_self _ _, hr⟩
        · exact Or.inr ⟨d', List.mem_cons_of_mem _ hd', hr⟩
      · intro d' hd' hs
        rcases List.mem_cons.mp hd' with rfl | hd'
        · exact hpre2.subset (hmem1 hs)
        · exact hmem2 d' hd' hs

lemma visitSpec_succ (m : SproutManifest)
    (hres : ∀ p ∈ m.modules, ∀ d ∈ p.depends_on, (findModule m d).isSome)
    (hacyc : ∀ a, ¬ Relation.TransGen (DepStep m) a a)
    (fuel : Nat) (hQ : VisitListSpec m fuel) : VisitSpec m (fuel + 1) := by
  intro a v r v' r' hinv hout
  simp only [visitDeps] at hout
  by_cases hv : a ∈ v
  · rw [if_pos hv] at hout
    cases hout
    exact ⟨hinv, List.prefix_refl r, fun x hx => Or.inl hx,
      fun _ => (hinv.1 a).mp hv⟩
  · rw [if_neg hv] at hout
    cases hfind : findModule m a with
    | none =>
      rw [hfind] at hout
      cases hout
      refine ⟨hinv, List.prefix_refl r, fun x hx => Or.inl hx, fun hs => ?_⟩
      simp at hs
    | some pkg =>
      rw [hfind] at hout
      cases h1 : visitDepsList m fuel pkg.depends_on v r with
      | none => simp only [h1] at hout; cases hout
      | some vr =>
        obtain ⟨v1, r1⟩ := vr
        simp only [h1] at hout
        cases hout
        obtain ⟨hinv1, hpre1, hnew1, hmem1⟩ := hQ pkg.depends_on v r v1 r1 hinv h1
        have hpkgmem : pkg ∈ m.modules := findModule_mem hfind
        have hdeps_in : ∀ d ∈ pkg.depends_on, d ∈ r1 := fun d hd =>
          hmem1 d hd (hres pkg hpkgmem d hd)
        have hstep : ∀ d ∈ pkg.depends_on, DepStep m a d := fun d hd => ⟨pkg, hfind, hd⟩
        have har1 : a ∉ r1 := by
          intro hmem
          rcases hnew1 a hmem with hr | ⟨d, hd, hreach⟩
          · exact hv ((hinv.1 a).mpr hr)
          · exact hacyc a (Relation.TransGen.head' (hstep d hd) hreach)
        refine ⟨⟨?_, ?_, ?_, ?_⟩, ?_, ?_, fun _ => ?_⟩
        · intro x
          rw [List.mem_cons, List.mem_append, List.mem_singleton, hinv1.1 x]
          tauto
        · simp only [List.nodup_append, List.nodup_cons, List.not_mem_nil,
            not_false_iff, List.nodup_nil, and_true, true_and]
          refine ⟨hinv1.2.1, ?_⟩
          intro x hx
          simp only [List.mem_singleton]
          intro heq
          exact har1 (heq ▸ hx)
        · intro x hx
          rcases List.mem_append.mp hx with hx | hx
          · exact hinv1.2.2.1 x hx
          · rw [List.mem_singleton.mp hx, hfind]; simp
        · intro x hx p hp d hd
          rcases List.mem_append.mp hx with hx | hx
          · obtain ⟨hdin, hdbefore⟩ := hinv1.2.2.2 x hx p hp d hd
            exact ⟨List.mem_append.mpr (Or.inl hdin), hdbefore.mono_append r1 [a] d x⟩
          · have hxa : x = a := List.mem_singleton.mp hx
            subst hxa
            have hpk : p = pkg := by rw [hp] at hfind; injection hfind
            subst hpk
            have hdin : d ∈ r1 := hdeps_in d hd
            exact ⟨List.mem_append.mpr (Or.inl hdin),
              before_of_mem_append r1 d x hdin har1⟩
        · exact hpre1.trans (List.prefix_append r1 [a])
        · intro x hx
          rcases List.mem_append.mp hx with hx | hx
          · rcases hnew1 x hx with hx0 | ⟨d, hd, hreach⟩
            · exact Or.inl hx0
            · exact Or.inr (Relation.ReflTransGen.head (hstep d hd) hreach)
          · rw [List.mem_singleton.mp hx]
            exact Or.inr Relation.ReflTransGen.refl
        · exact List.mem_append.mpr (Or.inr (List.mem_singleton.mpr rfl))

lemma visitSpec (m : SproutManifest)
    (hres : ∀ p ∈ m.modules, ∀ d ∈ p.depends_on, (findModule m d).isSome)
    (hacyc : ∀ a, ¬ Relation.TransGen (DepStep m) a a) :
    ∀ fuel, VisitSpec m fuel := by
  intro fuel
  induction fuel with
  | zero => intro a v r v' r' _ hout; simp [visitDeps] at hout
  | succ n ih =>
    exact visitSpec_succ m hres hacyc n (visitListSpec_of_visitSpec m n ih)

/-- The modules transitively required by `a` (the termination measure). -/
def reachSet (m : SproutManifest) (a : String) : Set String :=
  {x | Reach m a x ∧ x ∈ moduleIds m}

lemma reachSet_finite (m : SproutManifest) (a : String) : (reachSet m a).Finite :=
  Set.Finite.subset (List.finite_toSet (moduleIds m)) (fun _ hx => hx.2)

lemma reachSet_card_le (m : SproutManifest) (a : String) :
    (reachSet m a).ncard ≤ (moduleIds m).length := by
  have h1 : (reachSet m a).ncard ≤ {x | x ∈ moduleIds m}.ncard :=
    Set.ncard_le_ncard (fun _ hx => hx.2) (List.finite_toSet (moduleIds m))
  have h2 : {x | x ∈ moduleIds m} = ((moduleIds m).toFinset : Set String) := by
    ext x; simp
  rw [h2, Set.ncard_coe_Finset] at h1
  exact le_trans h1 (List.toFinset_card_le (moduleIds m))

/-- On acyclic manifests, a dependency step strictly shrinks the reachable
module set. -/
lemma reachSet_decrease (m : SproutManifest)
    (hacyc : ∀ a, ¬ Relation.TransGen (DepStep m) a a)
    {a b : String} (hstep : DepStep m a b) :
    (reachSet m b).ncard < (reachSet m a).ncard := by
  apply Set.ncard_lt_ncard _ (reachSet_finite m a)
  constructor
  · intro x hx
    exact ⟨Relation.ReflTransGen.head hstep hx.1, hx.2⟩
  · intro hsub
    obtain ⟨p, hp, -⟩ := id hstep
    have haids : a ∈ moduleIds m := by
      rw [moduleIds, List.mem_map]
      exact ⟨p, findModule_mem hp, findModule_name hp⟩
    have haa : a ∈ reachSet m a := ⟨Relation.ReflTransGen.refl, haids⟩
    have hab : a ∈ reachSet m b := hsub haa
    exact hacyc a (Relation.TransGen.head' hstep hab.1)

/-- Fuel exceeding the reachable-set size guarantees the traversal returns. -/
def TotalSpec (m : SproutManifest) (fuel : Nat) : Prop :=
  ∀ a v r, (reachSet m a).ncard < fuel → (visitDeps m fuel a v r).isSome

/-- List version of `TotalSpec`. -/
def TotalListSpec (m : SproutManifest) (fuel : Nat) : Prop :=
  ∀ ds v r, (∀ d ∈ ds, (reachSet m d).ncard < fuel) →
    (visitDepsList m fuel ds v r).isSome

lemma totalListSpec_of_totalSpec (m : SproutManifest) (fuel : Nat)
    (hP : TotalSpec m fuel) : TotalListSpec m fuel := by
  intro ds
  induction ds with
  | nil => intro v r _; simp [visitDepsList]
  | cons d ds ih =>
    intro v r hlt
    simp only [visitDepsList]
    cases h1 : visitDeps m fuel d v r with
    | none =>
      have := hP d v r (hlt d (List.mem_cons_self _ _))
      rw [h1] at this
      cases this
    | some vr =>
      obtain ⟨v1, r1⟩ := vr
      exact ih v1 r1 (fun d hd => hlt d (List.mem_cons_of_mem _ hd))

lemma totalSpec_succ (m : SproutManifest)
    (hacyc : ∀ a, ¬ Relation.TransGen (DepStep m) a a)
    (fuel : Nat) (hQ : TotalListSpec m fuel) : TotalSpec m (fuel + 1) := by
  intro a v r hlt
  simp only [visitDeps]
  by_cases hv : a ∈ v
  · simp [hv]
  · rw [if_neg hv]
    cases hfind : findModule m a with
    | none => simp
    | some pkg =>
      have hdeps : ∀ d ∈ pkg.depends_on, (reachSet m d).ncard < fuel := by
        intro d hd
        have := reachSet_decrease m hacyc ⟨pkg, hfind, hd⟩
        omega
      have := hQ pkg.depends_on v r hdeps
      cases h1 : visitDepsList m fuel pkg.depends_on v r with
      | none => rw [h1] at this; cases this
      | some vr => obtain ⟨v1, r1⟩ := vr; simp [h1]

lemma totalSpec (m : SproutManifest)
    (hacyc : ∀ a, ¬ Relation.TransGen (DepStep m) a a) :
    ∀ fuel, TotalSpec m fuel := by
  intro fuel
  induction fuel with
  | zero => intro a v r hlt; omega
  | succ n ih => exact totalSpec_succ m hacyc n (totalListSpec_of_totalSpec m n ih)

/-- C5: on a manifest whose dependency graph is acyclic and whose
dependency identifiers all resolve, `get_all_dependencies` of a present
module returns exactly the transitively reachable set plus the module
itself, duplicate-free, each element before its dependents, with the
requested module last. -/
theorem c5_dependency_closure (m : SproutManifest)
    (hres : ∀ p ∈ m.modules, ∀ d ∈ p.depends_on, (findModule m d).isSome)
    (hacyc : ∀ a, ¬ Relation.TransGen (DepStep m) a a)
    (module_id : String) (hmod : (findModule m module_id).isSome) :
    ∃ l, get_all_dependencies m module_id = some l ∧
      (∀ x, x ∈ l ↔ Reach m module_id x) ∧
      l.Nodup ∧
      l.getLast? = some module_id ∧
      (∀ y ∈ l, ∀ p, findModule m y = some p → ∀ x ∈ p.depends_on, Before l x y) := by
  have htot := totalSpec m hacyc (m.modules.length + 1) module_id [] []
    (by have := reachSet_card_le m module_id; simp only [moduleIds, List.length_map] at this; omega)
  obtain ⟨out, hout⟩ := Option.isSome_iff_exists.mp htot
  obtain ⟨v', r'⟩ := out
  have hinv0 : DfsInv m [] [] :=
    ⟨fun x => Iff.rfl, List.nodup_nil, by simp, by simp⟩
  obtain ⟨hinv', _, hnew, hamem⟩ :=
    visitSpec m hres hacyc (m.modules.length + 1) module_id [] [] v' r' hinv0 hout
  have hgad : get_all_dependencies m module_id = some r' := by
    rw [get_all_dependencies, hout]
    rfl
  have hmember : ∀ x, x ∈ r' ↔ Reach m module_id x := by
    intro x
    constructor
    · intro hx
      rcases hnew x hx with hx0 | hr
      · cases hx0
      · exact hr
    · intro hr
      induction hr with
      | refl => exact hamem hmod
      | tail hab hstep ih =>
        obtain ⟨p, hp, hd⟩ := hstep
        exact (hinv'.2.2.2 _ ih p hp _ hd).1
  have hlast : r'.getLast? = some module_id := by
    -- the top-level call appends module_id at the end
    simp only [visitDeps] at hout
    rw [if_neg (List.not_mem_nil module_id)] at hout
    obtain ⟨pkg, hpkg⟩ := Option.isSome_iff_exists.mp hmod
    cases h1 : visitDepsList m (m.modules.length) pkg.depends_on [] [] with
    | none =>
      simp only [hpkg, h1] at hout
      exact Option.noConfusion hout
    | some vr =>
      obtain ⟨v1, r1⟩ := vr
      simp only [hpkg, h1, Option.some.injEq, Prod.mk.injEq] at hout
      rw [← hout.2]
      exact List.getLast?_concat r1
  refine ⟨r', hgad, hmember, hinv'.2.1, hlast, ?_⟩
  intro y hy p hp x hx
  exact (hinv'.2.2.2 y hy p hp x hx).2

/-- Witness for `c5_dependency_closure` on the two-module scenario. -/
theorem c5_dependency_closure_witness :
    ∃ l, get_all_dependencies
        ⟨[⟨"a", [], [], none, none, none⟩, ⟨"b", ["a"], [], none, none, none⟩], none⟩ "b" =
        some l ∧
      (∀ x, x ∈ l ↔
        Reach ⟨[⟨"a", [], [], none, none, none⟩, ⟨"b", ["a"], [], none, none, none⟩], none⟩ "b" x) ∧
      l.Nodup ∧
      l.getLast? = some "b" ∧
      (∀ y ∈ l, ∀ p,
        findModule ⟨[⟨"a", [], [], none, none, none⟩, ⟨"b", ["a"], [], none, none, none⟩], none⟩ y =
          some p → ∀ x ∈ p.depends_on, Before l x y) := by
  refine c5_dependency_closure _ (by decide) ?_ "b" (by decide)
  apply acyclic_of_rank (fun s => if s = "b" then 0 else 1)
  intro x y hxy
  obtain ⟨p, hp, hd⟩ := hxy
  have : p = ⟨"a", [], [], none, none, none⟩ ∨ p = ⟨"b", ["a"], [], none, none, none⟩ := by
    have := findModule_mem hp
    simpa using this
  rcases this with rfl | rfl
  · cases hd
  · have hx : x = "b" := by simpa using (findModule_name hp).symm
    have hy : y = "a" := by simpa using hd
    subst hx; subst hy
    decide

/-! ## Parser front-end (C8)

The grammar-driven stage is pest-generated from `parser/sprout.pest`, which
is not among the sources; the tree-walking stage (`parse_manifest` and its
helpers in `src/parser/parser.rs`) is.  Modelled from the spec: the grammar
parser turns manifest text into a syntax tree of the shapes of the grammar
in spec section 6, or a structured parse error, and never panics (spec
section 4.1).  `STree` models the pest `Pair` tree (rule tag, matched text,
children) and `wfB` the shapes the grammar can produce.  The walking stage
is embedded from the source with every `.unwrap()` made explicit as a
`panicked` outcome of `PResult`, and `ok_or_else`/`Result` error paths as
`err`. -/

/-- The grammar rules of spec section 6 consumed by the tree walkers. -/
inductive Rule where
  | manifest | statement | module_block | module_field
  | depends_on_field | exports_field | fetch_block | build_block | update_block
  | fetch_field | fetch_output_field | fetch_spec | git_spec | http_spec | local_spec
  | git_field | git_url_field | git_ref_field | git_recursive_field
  | http_field | http_url_field | http_sha256_field | local_field
  | env_block | env_entry | script_content | command_line
  | environments_block | env_assignment | exports_map | exports_entry
  | array | value | string | unquoted_value | identifier | EOI
deriving DecidableEq, Repr

/-- A pest `Pair`: its rule, the matched text (`as_str`) and the inner
pairs (`into_inner`). -/
inductive STree where
  | node (rule : Rule) (text : String) (children : List STree)
deriving Repr

/-- The rule tag of a tree. -/
def STree.rule : STree → Rule
  | .node r _ _ => r

/-- The matched text of a tree. -/
def STree.text : STree → String
  | .node _ t _ => t

/-- The child trees. -/
def STree.children : STree → List STree
  | .node _ _ c => c

/-- Result of a walk: success, recoverable error, or a Rust panic
(`.unwrap()` on `None`). -/
inductive PResult (α : Type) where
  | ok : α → PResult α
  | err : String → PResult α
  | panicked : PResult α
deriving Repr

/-- Result propagation of the walkers: Rust's `?` on `Result` extended with
panic propagation. -/
def pbind {α β : Type} (x : PResult α) (f : α → PResult β) : PResult β :=
  match x with
  | .ok v => f v
  | .err e => .err e
  | .panicked => .panicked

/-- `.unwrap()` on an `Option`: panics on `None`. -/
def unwrapP {α : Type} : Option α → PResult α
  | some a => .ok a
  | none => .panicked

/-- `.ok_or_else(...)` on an `Option`: recoverable error on `None`. -/
def okOr {α : Type} (o : Option α) (e : String) : PResult α :=
  match o with
  | some a => .ok a
  | none => .err e

/-- `parse_string` from `src/parser/parser.rs` (lines 402-422): strip the
surrounding quotes and apply the escape replacements in source order. -/
def parseStringT (t : STree) : PResult String :=
  let s := t.text
  if s.length < 2 || !(s.startsWith "\"") || !(s.endsWith "\"") then
    .err ("Invalid string format: " ++ s)
  else
    let inner := (s.drop 1).dropRight 1
    .ok (((((inner.replace "\\\"" "\"").replace "\\\\" "\\").replace "\\n" "\n").replace
      "\\r" "\r").replace "\\t" "\t")

/-- `parse_value`: dispatch on string/unquoted/value-wrapper. -/
def parseValueT : STree → PResult String
  | .node .string txt ch => parseStringT (.node .string txt ch)
  | .node .unquoted_value txt _ => .ok txt
  | .node .value _ (c :: _) => parseValueT c
  | .node .value _ [] => .err "Empty value"
  | .node _ _ _ => .err "Unexpected value type"

/-- The loop of `parse_array`: parse every child with rule `value`. -/
def goArray : List STree → PResult (List String)
  | [] => .ok []
  | c :: cs =>
    if c.rule = .value then
      pbind (parseValueT c) fun v =>
      pbind (goArray cs) fun vs =>
      .ok (v :: vs)
    else goArray cs

/-- `parse_array`. -/
def parseArrayT (t : STree) : PResult (List String) := goArray t.children

/-- The loop of `parse_exports_map`: each entry yields key text and a
parsed string value; the two `.unwrap()`s are panic sites. -/
def goExports : List STree → PResult (List (String × String))
  | [] => .ok []
  | entry :: rest =>
    pbind (unwrapP entry.children.head?) fun keyN =>
    pbind (unwrapP (entry.children.get? 1)) fun valN =>
    pbind (parseStringT valN) fun v =>
    pbind (goExports rest) fun vs =>
    .ok ((keyN.text, v) :: vs)

/-- `parse_exports_map`. -/
def parseExportsMapT (t : STree) : PResult (List (String × String)) :=
  goExports t.children

/-- The env-entry loop of `parse_script_block` (two `.unwrap()`s per
entry). -/
def parseEnvEntries : List STree → PResult (List (String × String))
  | [] => .ok []
  | e :: rest =>
    pbind (unwrapP e.children.head?) fun keyN =>
    pbind (unwrapP (e.children.get? 1)) fun valN =>
    pbind (parseStringT valN) fun v =>
    pbind (parseEnvEntries rest) fun vs =>
    .ok ((keyN.text, v) :: vs)

/-- The `script_content` loop of `parse_script_block`: command lines are
trimmed and kept when nonempty; nested env blocks contribute entries. -/
def goContent : List STree → List (String × String) × List String →
    PResult (List (String × String) × List String)
  | [], acc => .ok acc
  | c :: rest, acc =>
    match c.rule with
    | .command_line =>
      let cmd := c.text.trim
      if cmd.isEmpty then goContent rest acc
      else goContent rest (acc.1, acc.2 ++ [cmd])
    | .env_block =>
      pbind (parseEnvEntries c.children) fun es =>
      goContent rest (acc.1 ++ es, acc.2)
    | _ => goContent rest acc

/-- The outer loop of `parse_script_block`. -/
def goScript : List STree → List (String × String) × List String →
    PResult (List (String × String) × List String)
  | [], acc => .ok acc
  | c :: rest, acc =>
    match c.rule with
    | .env_block =>
      pbind (parseEnvEntries c.children) fun es =>
      goScript rest (acc.1 ++ es, acc.2)
    | .script_content =>
      pbind (goContent c.children acc) fun acc2 =>
      goScript rest acc2
    | _ => goScript rest acc

/-- `parse_script_block` from `src/parser/parser.rs` (lines 296-345). -/
def parseScriptBlockT (t : STree) : PResult ScriptBlock :=
  pbind (goScript t.children ([], [])) fun acc =>
  .ok ⟨acc.1, acc.2⟩

/-- The git-field loop of `parse_fetch_spec`: two `.unwrap()`s per field. -/
def parseGitFields : List STree → Option String × Option String × Bool →
    PResult (Option String × Option String × Bool)
  | [], acc => .ok acc
  | f :: rest, acc =>
    if f.rule = .git_field then
      pbind (unwrapP f.children.head?) fun inner =>
      match inner.rule with
      | .git_url_field =>
        pbind (unwrapP inner.children.head?) fun v =>
        pbind (parseValueT v) fun s =>
        parseGitFields rest (some s, acc.2.1, acc.2.2)
      | .git_ref_field =>
        pbind (unwrapP inner.children.head?) fun v =>
        pbind (parseValueT v) fun s =>
        parseGitFields rest (acc.1, some s, acc.2.2)
      | .git_recursive_field =>
        pbind (unwrapP inner.children.head?) fun v =>
        pbind (parseValueT v) fun s =>
        parseGitFields rest (acc.1, acc.2.1, s = "true")
      | _ => parseGitFields rest acc
    else parseGitFields rest acc

/-- The http-field loop of `parse_fetch_spec`. -/
def parseHttpFields : List STree → Option String × Option String →
    PResult (Option String × Option String)
  | [], acc => .ok acc
  | f :: rest, acc =>
    if f.rule = .http_field then
      pbind (unwrapP f.children.head?) fun inner =>
      match inner.rule with
      | .http_url_field =>
        pbind (unwrapP inner.children.head?) fun v =>
        pbind (parseValueT v) fun s =>
        parseHttpFields rest (some s, acc.2)
      | .http_sha256_field =>
        pbind (unwrapP inner.children.head?) fun v =>
        pbind (parseValueT v) fun s =>
        parseHttpFields rest (acc.1, some s)
      | _ => parseHttpFields rest acc
    else parseHttpFields rest acc

/-- The local-field loop of `parse_fetch_spec` (one `.unwrap()`). -/
def parseLocalFields : List STree → Option String → PResult (Option String)
  | [], acc => .ok acc
  | f :: rest, acc =>
    if f.rule = .local_field then
      pbind (unwrapP f.children.head?) fun v =>
      pbind (parseValueT v) fun s =>
      parseLocalFields rest (some s)
    else parseLocalFields rest acc

/-- `parse_fetch_spec` from `src/parser/parser.rs` (lines 201-294). -/
def parseFetchSpecT (t : STree) : PResult FetchSpec :=
  pbind (okOr t.children.head? "Missing inner fetch spec") fun inner =>
  match inner.rule with
  | .git_spec =>
    pbind (parseGitFields inner.children (none, none, false)) fun acc =>
    pbind (okOr acc.1 "Git spec missing url") fun url =>
    .ok (.Git ⟨url, acc.2.1, acc.2.2⟩)
  | .http_spec =>
    pbind (parseHttpFields inner.children (none, none)) fun acc =>
    pbind (okOr acc.1 "HTTP spec missing url") fun url =>
    .ok (.Http ⟨url, acc.2⟩)
  | .local_spec =>
    pbind (parseLocalFields inner.children none) fun acc =>
    pbind (okOr acc "Local spec missing path") fun path =>
    .ok (.Local ⟨path⟩)
  | _ => .err "Unsupported inner fetch spec type"

/-- The fetch-field loop of `parse_fetch_block` (`ok_or_else` error paths
only). -/
def parseFetchFields : List STree → Option FetchSpec × Option String →
    PResult (Option FetchSpec × Option String)
  | [], acc => .ok acc
  | f :: rest, acc =>
    if f.rule = .fetch_field then
      pbind (okOr f.children.head? "Empty fetch field") fun inner =>
      match inner.rule with
      | .fetch_output_field =>
        pbind (okOr inner.children.head? "Missing output value") fun v =>
        pbind (parseValueT v) fun s =>
        parseFetchFields rest (acc.1, some s)
      | .fetch_spec =>
        pbind (parseFetchSpecT inner) fun sp =>
        parseFetchFields rest (some sp, acc.2)
      | _ => parseFetchFields rest acc
    else parseFetchFields rest acc

/-- `parse_fetch_block` from `src/parser/parser.rs` (lines 172-199). -/
def parseFetchBlockT (t : STree) : PResult FetchBlock :=
  pbind (parseFetchFields t.children (none, none)) fun acc =>
  pbind (okOr acc.1 "Missing fetch spec") fun spec =>
  .ok ⟨spec, acc.2⟩

/-- Accumulator for the module-field loop. -/
structure MAcc where
  depends_on : List String
  exports : List (String × String)
  fetch : Option FetchBlock
  build : Option ScriptBlock
  update : Option ScriptBlock

/-- Dispatch one (possibly unwrapped) module field, as in the two matching
arms of `parse_module_block`; unknown fields are ignored. -/
def dispatchField (acc : MAcc) (inner : STree) : PResult MAcc :=
  match inner.rule with
  | .depends_on_field =>
    pbind (unwrapP inner.children.head?) fun arr =>
    pbind (parseArrayT arr) fun vs =>
    .ok { acc with depends_on := vs }
  | .exports_field =>
    pbind (unwrapP inner.children.head?) fun mp =>
    pbind (parseExportsMapT mp) fun es =>
    .ok { acc with exports := es }
  | .fetch_block =>
    pbind (parseFetchBlockT inner) fun fb =>
    .ok { acc with fetch := some fb }
  | .build_block =>
    pbind (parseScriptBlockT inner) fun sb =>
    .ok { acc with build := some sb }
  | .update_block =>
    pbind (parseScriptBlockT inner) fun sb =>
    .ok { acc with update := some sb }
  | _ => .ok acc

/-- The module-field loop: `module_field` wrappers are unwrapped with
`.unwrap()` (panic site), then dispatched like direct fields. -/
def goModuleFields : List STree → MAcc → PResult MAcc
  | [], acc => .ok acc
  | f :: rest, acc =>
    match f.rule with
    | .module_field =>
      pbind (unwrapP f.children.head?) fun inner =>
      pbind (dispatchField acc inner) fun acc2 =>
      goModuleFields rest acc2
    | _ =>
      pbind (dispatchField acc f) fun acc2 =>
      goModuleFields rest acc2

/-- `parse_module_block` from `src/parser/parser.rs` (lines 83-170). -/
def parseModuleBlockT (t : STree) : PResult ModuleBlock :=
  match t.children with
  | [] => .err "Missing package ID"
  | idNode :: fields =>
    pbind (goModuleFields fields ⟨[], [], none, none, none⟩) fun acc =>
    .ok ⟨idNode.text, acc.depends_on, acc.exports, acc.fetch, acc.build, acc.update⟩

/-- The loop of `parse_environments_block`: two `.unwrap()`s per entry
(name and the identifier array). -/
def goEnvs : List STree → PResult (List (String × List String))
  | [] => .ok []
  | entry :: rest =>
    pbind (unwrapP entry.children.head?) fun nameN =>
    pbind (unwrapP (entry.children.get? 1)) fun arrN =>
    pbind (parseArrayT arrN) fun arr =>
    pbind (goEnvs rest) fun es =>
    .ok ((nameN.text, arr) :: es)

/-- `parse_environments_block` (the source inserts into a `HashMap`;
modelled as the association list of entries in order). -/
def parseEnvironmentsBlockT (t : STree) : PResult EnvironmentsBlock :=
  pbind (goEnvs t.children) fun es =>
  .ok ⟨es⟩

/-- The statement-inner loop of `parse_manifest`. -/
def goStatementInner : List STree → List ModuleBlock × Option EnvironmentsBlock →
    PResult (List ModuleBlock × Option EnvironmentsBlock)
  | [], acc => .ok acc
  | c :: rest, acc =>
    match c.rule with
    | .module_block =>
      pbind (parseModuleBlockT c) fun mb =>
      goStatementInner rest (acc.1 ++ [mb], acc.2)
    | .environments_block =>
      pbind (parseEnvironmentsBlockT c) fun eb =>
      goStatementInner rest (acc.1, some eb)
    | _ => goStatementInner rest acc

/-- The manifest-children loop of `parse_manifest` (`EOI` breaks). -/
def goStatements : List STree → List ModuleBlock × Option EnvironmentsBlock →
    PResult (List ModuleBlock × Option EnvironmentsBlock)
  | [], acc => .ok acc
  | c :: rest, acc =>
    match c.rule with
    | .statement =>
      pbind (goStatementInner c.children acc) fun acc2 =>
      goStatements rest acc2
    | .module_block =>
      pbind (parseModuleBlockT c) fun mb =>
      goStatements rest (acc.1 ++ [mb], acc.2)
    | .environments_block =>
      pbind (parseEnvironmentsBlockT c) fun eb =>
      goStatements rest (acc.1, some eb)
    | .EOI => .ok acc
    | _ => goStatements rest acc

/-- `parse_manifest`'s tree-walking stage (`src/parser/parser.rs` lines
13-81): walk the manifest pair's children, then sort modules by id. -/
def parseManifestT (t : STree) : PResult SproutManifest :=
  match t.rule with
  | .manifest =>
    pbind (goStatements t.children ([], none)) fun acc =>
    .ok ⟨sortLe (fun a b => strLe a.name b.name) acc.1, acc.2⟩
  | _ => .ok ⟨[], none⟩

/-! ### Grammar-conformant tree shapes

Modelled from the spec's grammar (section 6): each rule's productions fix
the arities and rules of children.  `wfLocal` states the per-node
constraints, `wfB` closes them under subtrees; every tree the grammar
stage can produce satisfies `wfB`. -/

/-- Per-node shape constraint of the grammar production for `r`. -/
def wfLocal (r : Rule) (ch : List STree) : Bool :=
  match r with
  | .module_field | .depends_on_field | .git_field | .http_field | .local_field
  | .git_url_field | .git_ref_field | .git_recursive_field
  | .http_url_field | .http_sha256_field => !ch.isEmpty
  | .exports_field => !ch.isEmpty && ch.all (fun c => decide (c.rule = .exports_map))
  | .exports_map => ch.all (fun c => decide (c.rule = .exports_entry))
  | .exports_entry => decide (2 ≤ ch.length)
  | .env_block => ch.all (fun c => decide (c.rule = .env_entry))
  | .env_entry => decide (2 ≤ ch.length)
  | .environments_block => ch.all (fun c => decide (c.rule = .env_assignment))
  | .env_assignment => decide (2 ≤ ch.length)
  | _ => true

/-- Grammar conformance of a tree: the local shape constraint holds at
every node. -/
inductive WfT : STree → Prop where
  | node (r : Rule) (txt : String) (ch : List STree) :
      wfLocal r ch = true → (∀ c ∈ ch, WfT c) → WfT (.node r txt ch)

lemma WfT.parts {t : STree} (h : WfT t) :
    wfLocal t.rule t.children = true ∧ ∀ c ∈ t.children, WfT c := by
  cases h with
  | node r txt ch hl hch => exact ⟨hl, hch⟩

/-! ### No-panic lemmas -/

lemma pbind_ne {α β : Type} {x : PResult α} {f : α → PResult β}
    (hx : x ≠ PResult.panicked)
    (hf : ∀ v, x = PResult.ok v → f v ≠ PResult.panicked) :
    pbind x f ≠ PResult.panicked := by
  cases x with
  | ok v => exact hf v rfl
  | err e => simp [pbind]
  | panicked => exact absurd rfl hx

lemma unwrapP_ne {α : Type} {o : Option α} (h : o.isSome) :
    unwrapP o ≠ PResult.panicked := by
  cases o with
  | none => cases h
  | some a => simp [unwrapP]

lemma okOr_ne {α : Type} (o : Option α) (e : String) : okOr o e ≠ PResult.panicked := by
  cases o <;> simp [okOr]

lemma head?_isSome_of_ne_nil {α : Type} {l : List α} (h : l ≠ []) : l.head?.isSome := by
  cases l with
  | nil => exact absurd rfl h
  | cons a as => simp

lemma get?_isSome_of_lt {α : Type} {l : List α} {n : Nat} (h : n < l.length) :
    (l.get? n).isSome := by
  rw [List.get?_eq_get h]
  rfl

/-- Strong induction on subtree size. -/
lemma stree_ind (P : STree → Prop)
    (h : ∀ t, (∀ s : STree, sizeOf s < sizeOf t → P s) → P t) : ∀ t, P t := by
  intro t
  generalize hn : sizeOf t = n
  induction n using Nat.strong_induction_on generalizing t with
  | _ n ih =>
    subst hn
    exact h t (fun s hs => ih (sizeOf s) hs s rfl)

lemma parseStringT_ne (t : STree) : parseStringT t ≠ PResult.panicked := by
  rw [parseStringT]
  dsimp only
  split <;> simp

lemma parseValueT_ne : ∀ t, parseValueT t ≠ PResult.panicked := by
  apply stree_ind
  intro t ih
  obtain ⟨r, txt, ch⟩ := t
  cases r <;> try simp [parseValueT]
  case string => exact parseStringT_ne _
  case value =>
    cases ch with
    | nil => simp [parseValueT]
    | cons c cs =>
      have hlt : sizeOf c < sizeOf (STree.node Rule.value txt (c :: cs)) := by
        simp
        omega
      have := ih c hlt
      simpa [parseValueT] using this

lemma goArray_ne : ∀ cs, goArray cs ≠ PResult.panicked := by
  intro cs
  induction cs with
  | nil => simp [goArray]
  | cons c cs ih =>
    rw [goArray]
    split
    · exact pbind_ne (parseValueT_ne c) fun v _ =>
        pbind_ne ih fun vs _ => by simp
    · exact ih

lemma parseArrayT_ne (t : STree) : parseArrayT t ≠ PResult.panicked :=
  goArray_ne t.children

lemma goExports_ne : ∀ cs, (∀ c ∈ cs, 2 ≤ c.children.length) →
    goExports cs ≠ PResult.panicked := by
  intro cs
  induction cs with
  | nil => intro _; simp [goExports]
  | cons e rest ih =>
    intro hlen
    have he := hlen e (List.mem_cons_self _ _)
    rw [goExports]
    refine pbind_ne (unwrapP_ne (head?_isSome_of_ne_nil ?_)) fun keyN _ =>
      pbind_ne (unwrapP_ne (get?_isSome_of_lt (by omega))) fun valN _ =>
      pbind_ne (parseStringT_ne valN) fun v _ =>
      pbind_ne (ih fun c hc => hlen c (List.mem_cons_of_mem _ hc)) fun vs _ => by simp
    intro hnil
    rw [hnil] at he
    simp at he

lemma parseEnvEntries_ne : ∀ cs, (∀ c ∈ cs, 2 ≤ c.children.length) →
    parseEnvEntries cs ≠ PResult.panicked := by
  intro cs
  induction cs with
  | nil => intro _; simp [parseEnvEntries]
  | cons e rest ih =>
    intro hlen
    have he := hlen e (List.mem_cons_self _ _)
    rw [parseEnvEntries]
    refine pbind_ne (unwrapP_ne (head?_isSome_of_ne_nil ?_)) fun keyN _ =>
      pbind_ne (unwrapP_ne (get?_isSome_of_lt (by omega))) fun valN _ =>
      pbind_ne (parseStringT_ne valN) fun v _ =>
      pbind_ne (ih fun c hc => hlen c (List.mem_cons_of_mem _ hc)) fun vs _ => by simp
    intro hnil
    rw [hnil] at he
    simp at he

/-- Entries of a conformant env block have the two children the walk
unwraps. -/
lemma env_block_entries {c : STree} (hwf : WfT c) (hr : c.rule = .env_block) :
    ∀ e ∈ c.children, 2 ≤ e.children.length := by
  intro e he
  obtain ⟨hlocal, hch⟩ := hwf.parts
  rw [hr, wfLocal, List.all_eq_true] at hlocal
  have her : e.rule = .env_entry := of_decide_eq_true (hlocal e he)
  obtain ⟨hel, -⟩ := (hch e he).parts
  rw [her, wfLocal] at hel
  exact of_decide_eq_true hel

/-- Entries of a conformant exports map have the two children the walk
unwraps. -/
lemma exports_map_entries {c : STree} (hwf : WfT c) (hr : c.rule = .exports_map) :
    ∀ e ∈ c.children, 2 ≤ e.children.length := by
  intro e he
  obtain ⟨hlocal, hch⟩ := hwf.parts
  rw [hr, wfLocal, List.all_eq_true] at hlocal
  have her : e.rule = .exports_entry := of_decide_eq_true (hlocal e he)
  obtain ⟨hel, -⟩ := (hch e he).parts
  rw [her, wfLocal] at hel
  exact of_decide_eq_true hel

/-- Entries of a conformant environments block have the two children the
walk unwraps. -/
lemma environments_block_entries {c : STree} (hwf : WfT c)
    (hr : c.rule = .environments_block) :
    ∀ e ∈ c.children, 2 ≤ e.children.length := by
  intro e he
  obtain ⟨hlocal, hch⟩ := hwf.parts
  rw [hr, wfLocal, List.all_eq_true] at hlocal
  have her : e.rule = .env_assignment := of_decide_eq_true (hlocal e he)
  obtain ⟨hel, -⟩ := (hch e he).parts
  rw [her, wfLocal] at hel
  exact of_decide_eq_true hel

lemma unwrapP_ok {α : Type} {o : Option α} {v : α}
    (h : unwrapP o = PResult.ok v) : o = some v := by
  cases o with
  | none => cases h
  | some a => rw [unwrapP] at h; cases h; rfl

lemma okOr_ok {α : Type} {o : Option α} {e : String} {v : α}
    (h : okOr o e = PResult.ok v) : o = some v := by
  cases o with
  | none => cases h
  | some a => rw [okOr] at h; cases h; rfl

lemma mem_of_head?_eq {α : Type} {l : List α} {a : α} (h : l.head? = some a) : a ∈ l := by
  cases l with
  | nil => cases h
  | cons b bs =>
    rw [List.head?_cons] at h
    cases h
    exact List.mem_cons_self _ _

/-- The non-empty-children constraint of a field node, as the walk needs
it. -/
lemma wf_nonempty {t : STree} (hwf : WfT t)
    (hr : t.rule = .module_field ∨ t.rule = .depends_on_field ∨
      t.rule = .exports_field ∨ t.rule = .git_field ∨ t.rule = .http_field ∨
      t.rule = .local_field ∨ t.rule = .git_url_field ∨ t.rule = .git_ref_field ∨
      t.rule = .git_recursive_field ∨ t.rule = .http_url_field ∨
      t.rule = .http_sha256_field) :
    t.children ≠ [] := by
  obtain ⟨hlocal, -⟩ := hwf.parts
  intro hnil
  rcases hr with h | h | h | h | h | h | h | h | h | h | h <;>
    · rw [h, wfLocal, hnil] at hlocal
      simp at hlocal

lemma goContent_ne : ∀ cs acc, (∀ c ∈ cs, WfT c) →
    goContent cs acc ≠ PResult.panicked := by
  intro cs
  induction cs with
  | nil => intro acc _; simp [goContent]
  | cons c rest ih =>
    intro acc hwf
    have hsub : ∀ x ∈ rest, WfT x := fun x hx => hwf x (List.mem_cons_of_mem _ hx)
    rw [goContent]
    split
    · dsimp only
      split
      · exact ih _ hsub
      · exact ih _ hsub
    · rename_i heq
      exact pbind_ne (parseEnvEntries_ne c.children
        (env_block_entries (hwf c (List.mem_cons_self _ _)) heq)) fun es _ => ih _ hsub
    · exact ih _ hsub

lemma goScript_ne : ∀ cs acc, (∀ c ∈ cs, WfT c) →
    goScript cs acc ≠ PResult.panicked := by
  intro cs
  induction cs with
  | nil => intro acc _; simp [goScript]
  | cons c rest ih =>
    intro acc hwf
    have hsub : ∀ x ∈ rest, WfT x := fun x hx => hwf x (List.mem_cons_of_mem _ hx)
    have hc := hwf c (List.mem_cons_self _ _)
    rw [goScript]
    split
    · rename_i heq
      exact pbind_ne (parseEnvEntries_ne c.children (env_block_entries hc heq))
        fun es _ => ih _ hsub
    · exact pbind_ne (goContent_ne c.children acc hc.parts.2) fun acc2 _ => ih _ hsub
    · exact ih _ hsub

lemma parseScriptBlockT_ne (t : STree) (hwf : WfT t) :
    parseScriptBlockT t ≠ PResult.panicked := by
  rw [parseScriptBlockT]
  exact pbind_ne (goScript_ne t.children ([], []) hwf.parts.2) fun acc _ => by simp

lemma parseGitFields_ne : ∀ cs acc, (∀ c ∈ cs, WfT c) →
    parseGitFields cs acc ≠ PResult.panicked := by
  intro cs
  induction cs with
  | nil => intro acc _; simp [parseGitFields]
  | cons f rest ih =>
    intro acc hwf
    have hsub : ∀ x ∈ rest, WfT x := fun x hx => hwf x (List.mem_cons_of_mem _ hx)
    have hf := hwf f (List.mem_cons_self _ _)
    rw [parseGitFields]
    split
    · refine pbind_ne (unwrapP_ne (head?_isSome_of_ne_nil (wf_nonempty hf (by tauto))))
        fun inner hinner => ?_
      have hwfi : WfT inner := hf.parts.2 inner (mem_of_head?_eq (unwrapP_ok hinner))
      split
      · rename_i hru
        exact pbind_ne (unwrapP_ne (head?_isSome_of_ne_nil
            (wf_nonempty hwfi (by rw [hru]; tauto))))
          fun v _ => pbind_ne (parseValueT_ne v) fun s _ => ih _ hsub
      · rename_i hru
        exact pbind_ne (unwrapP_ne (head?_isSome_of_ne_nil
            (wf_nonempty hwfi (by rw [hru]; tauto))))
          fun v _ => pbind_ne (parseValueT_ne v) fun s _ => ih _ hsub
      · rename_i hru
        exact pbind_ne (unwrapP_ne (head?_isSome_of_ne_nil
            (wf_nonempty hwfi (by rw [hru]; tauto))))
          fun v _ => pbind_ne (parseValueT_ne v) fun s _ => ih _ hsub
      · exact ih _ hsub
    · exact ih _ hsub

lemma parseHttpFields_ne : ∀ cs acc, (∀ c ∈ cs, WfT c) →
    parseHttpFields cs acc ≠ PResult.panicked := by
  intro cs
  induction cs with
  | nil => intro acc _; simp [parseHttpFields]
  | cons f rest ih =>
    intro acc hwf
    have hsub : ∀ x ∈ rest, WfT x := fun x hx => hwf x (List.mem_cons_of_mem _ hx)
    have hf := hwf f (List.mem_cons_self _ _)
    rw [parseHttpFields]
    split
    · refine pbind_ne (unwrapP_ne (head?_isSome_of_ne_nil (wf_nonempty hf (by tauto))))
        fun inner hinner => ?_
      have hwfi : WfT inner := hf.parts.2 inner (mem_of_head?_eq (unwrapP_ok hinner))
      split
      · rename_i hru
        exact pbind_ne (unwrapP_ne (head?_isSome_of_ne_nil
            (wf_nonempty hwfi (by rw [hru]; tauto))))
          fun v _ => pbind_ne (parseValueT_ne v) fun s _ => ih _ hsub
      · rename_i hru
        exact pbind_ne (unwrapP_ne (head?_isSome_of_ne_nil
            (wf_nonempty hwfi (by rw [hru]; tauto))))
          fun v _ => pbind_ne (parseValueT_ne v) fun s _ => ih _ hsub
      · exact ih _ hsub
    · exact ih _ hsub

lemma parseLocalFields_ne : ∀ cs acc, (∀ c ∈ cs, WfT c) →
    parseLocalFields cs acc ≠ PResult.panicked := by
  intro cs
  induction cs with
  | nil => intro acc _; simp [parseLocalFields]
  | cons f rest ih =>
    intro acc hwf
    have hsub : ∀ x ∈ rest, WfT x := fun x hx => hwf x (List.mem_cons_of_mem _ hx)
    have hf := hwf f (List.mem_cons_self _ _)
    rw [parseLocalFields]
    split
    · exact pbind_ne (unwrapP_ne (head?_isSome_of_ne_nil (wf_nonempty hf (by tauto))))
        fun v _ => pbind_ne (parseValueT_ne v) fun s _ => ih _ hsub
    · exact ih _ hsub

lemma parseFetchSpecT_ne (t : STree) (hwf : WfT t) :
    parseFetchSpecT t ≠ PResult.panicked := by
  rw [parseFetchSpecT]
  refine pbind_ne (okOr_ne _ _) fun inner hinner => ?_
  have hwfi : WfT inner := hwf.parts.2 inner (mem_of_head?_eq (okOr_ok hinner))
  split
  · exact pbind_ne (parseGitFields_ne inner.children _ hwfi.parts.2) fun acc _ =>
      pbind_ne (okOr_ne _ _) fun url _ => by simp
  · exact pbind_ne (parseHttpFields_ne inner.children _ hwfi.parts.2) fun acc _ =>
      pbind_ne (okOr_ne _ _) fun url _ => by simp
  · exact pbind_ne (parseLocalFields_ne inner.children _ hwfi.parts.2) fun acc _ =>
      pbind_ne (okOr_ne _ _) fun path _ => by simp
  · simp

lemma parseFetchFields_ne : ∀ cs acc, (∀ c ∈ cs, WfT c) →
    parseFetchFields cs acc ≠ PResult.panicked := by
  intro cs
  induction cs with
  | nil => intro acc _; simp [parseFetchFields]
  | cons f rest ih =>
    intro acc hwf
    have hsub : ∀ x ∈ rest, WfT x := fun x hx => hwf x (List.mem_cons_of_mem _ hx)
    have hf := hwf f (List.mem_cons_self _ _)
    rw [parseFetchFields]
    split
    · refine pbind_ne (okOr_ne _ _) fun inner hinner => ?_
      have hwfi : WfT inner := hf.parts.2 inner (mem_of_head?_eq (okOr_ok hinner))
      split
      · exact pbind_ne (okOr_ne _ _) fun v _ =>
          pbind_ne (parseValueT_ne v) fun s _ => ih _ hsub
      · exact pbind_ne (parseFetchSpecT_ne inner hwfi) fun sp _ => ih _ hsub
      · exact ih _ hsub
    · exact ih _ hsub

lemma parseFetchBlockT_ne (t : STree) (hwf : WfT t) :
    parseFetchBlockT t ≠ PResult.panicked := by
  rw [parseFetchBlockT]
  exact pbind_ne (parseFetchFields_ne t.children (none, none) hwf.parts.2) fun acc _ =>
    pbind_ne (okOr_ne _ _) fun spec _ => by simp

lemma parseExportsMapT_ne (t : STree) (hwf : WfT t) (hr : t.rule = .exports_map) :
    parseExportsMapT t ≠ PResult.panicked :=
  goExports_ne t.children (exports_map_entries hwf hr)

lemma dispatchField_ne (acc : MAcc) (inner : STree) (hwf : WfT inner) :
    dispatchField acc inner ≠ PResult.panicked := by
  rw [dispatchField]
  split
  · rename_i heq
    exact pbind_ne (unwrapP_ne (head?_isSome_of_ne_nil (wf_nonempty hwf (by tauto))))
      fun arr _ => pbind_ne (parseArrayT_ne arr) fun vs _ => by simp
  · rename_i heq
    refine pbind_ne (unwrapP_ne (head?_isSome_of_ne_nil (wf_nonempty hwf (by tauto))))
      fun mp hmp => ?_
    have hmem : mp ∈ inner.children := mem_of_head?_eq (unwrapP_ok hmp)
    have hwfm : WfT mp := hwf.parts.2 mp hmem
    have hlocal := hwf.parts.1
    rw [heq, wfLocal, Bool.and_eq_true, List.all_eq_true] at hlocal
    have hrm : mp.rule = .exports_map := of_decide_eq_true (hlocal.2 mp hmem)
    exact pbind_ne (parseExportsMapT_ne mp hwfm hrm) fun es _ => by simp
  · exact pbind_ne (parseFetchBlockT_ne inner hwf) fun fb _ => by simp
  · exact pbind_ne (parseScriptBlockT_ne inner hwf) fun sb _ => by simp
  · exact pbind_ne (parseScriptBlockT_ne inner hwf) fun sb _ => by simp
  · simp

lemma goModuleFields_ne : ∀ fs acc, (∀ f ∈ fs, WfT f) →
    goModuleFields fs acc ≠ PResult.panicked := by
  intro fs
  induction fs with
  | nil => intro acc _; simp [goModuleFields]
  | cons f rest ih =>
    intro acc hwf
    have hsub : ∀ x ∈ rest, WfT x := fun x hx => hwf x (List.mem_cons_of_mem _ hx)
    have hf := hwf f (List.mem_cons_self _ _)
    rw [goModuleFields]
    split
    · refine pbind_ne (unwrapP_ne (head?_isSome_of_ne_nil (wf_nonempty hf (by tauto))))
        fun inner hinner => ?_
      have hwfi : WfT inner := hf.parts.2 inner (mem_of_head?_eq (unwrapP_ok hinner))
      exact pbind_ne (dispatchField_ne acc inner hwfi) fun acc2 _ => ih _ hsub
    · exact pbind_ne (dispatchField_ne acc f hf) fun acc2 _ => ih _ hsub

lemma parseModuleBlockT_ne (t : STree) (hwf : WfT t) :
    parseModuleBlockT t ≠ PResult.panicked := by
  rw [parseModuleBlockT]
  split
  · simp
  · rename_i idNode fields heq
    have hfields : ∀ f ∈ fields, WfT f := fun f hf =>
      hwf.parts.2 f (heq ▸ List.mem_cons_of_mem _ hf)
    exact pbind_ne (goModuleFields_ne fields ⟨[], [], none, none, none⟩ hfields)
      fun acc _ => by simp

lemma goEnvs_ne : ∀ cs, (∀ c ∈ cs, 2 ≤ c.children.length) →
    goEnvs cs ≠ PResult.panicked := by
  intro cs
  induction cs with
  | nil => intro _; simp [goEnvs]
  | cons e rest ih =>
    intro hlen
    have he := hlen e (List.mem_cons_self _ _)
    rw [goEnvs]
    refine pbind_ne (unwrapP_ne (head?_isSome_of_ne_nil ?_)) fun nameN _ =>
      pbind_ne (unwrapP_ne (get?_isSome_of_lt (by omega))) fun arrN _ =>
      pbind_ne (parseArrayT_ne arrN) fun arr _ =>
      pbind_ne (ih fun c hc => hlen c (List.mem_cons_of_mem _ hc)) fun es _ => by simp
    intro hnil
    rw [hnil] at he
    simp at he

lemma parseEnvironmentsBlockT_ne (t : STree) (hwf : WfT t)
    (hr : t.rule = .environments_block) :
    parseEnvironmentsBlockT t ≠ PResult.panicked := by
  rw [parseEnvironmentsBlockT]
  exact pbind_ne (goEnvs_ne t.children (environments_block_entries hwf hr))
    fun es _ => by simp

lemma goStatementInner_ne : ∀ cs acc, (∀ c ∈ cs, WfT c) →
    goStatementInner cs acc ≠ PResult.panicked := by
  intro cs
  induction cs with
  | nil => intro acc _; simp [goStatementInner]
  | cons c rest ih =>
    intro acc hwf
    have hsub : ∀ x ∈ rest, WfT x := fun x hx => hwf x (List.mem_cons_of_mem _ hx)
    have hc := hwf c (List.mem_cons_self _ _)
    rw [goStatementInner]
    split
    · exact pbind_ne (parseModuleBlockT_ne c hc) fun mb _ => ih _ hsub
    · rename_i heq
      exact pbind_ne (parseEnvironmentsBlockT_ne c hc heq) fun eb _ => ih _ hsub
    · exact ih _ hsub

lemma goStatements_ne : ∀ cs acc, (∀ c ∈ cs, WfT c) →
    goStatements cs acc ≠ PResult.panicked := by
  intro cs
  induction cs with
  | nil => intro acc _; simp [goStatements]
  | cons c rest ih =>
    intro acc hwf
    have hsub : ∀ x ∈ rest, WfT x := fun x hx => hwf x (List.mem_cons_of_mem _ hx)
    have hc := hwf c (List.mem_cons_self _ _)
    rw [goStatements]
    split
    · exact pbind_ne (goStatementInner_ne c.children acc hc.parts.2)
        fun acc2 _ => ih _ hsub
    · exact pbind_ne (parseModuleBlockT_ne c hc) fun mb _ => ih _ hsub
    · rename_i heq
      exact pbind_ne (parseEnvironmentsBlockT_ne c hc heq) fun eb _ => ih _ hsub
    · simp
    · exact ih _ hsub

lemma parseManifestT_ne (t : STree) (hwf : WfT t) :
    parseManifestT t ≠ PResult.panicked := by
  rw [parseManifestT]
  split
  · exact pbind_ne (goStatements_ne t.children ([], none) hwf.parts.2)
      fun acc _ => by simp
  · simp

/-- C8: on every syntax tree the grammar can produce (and the grammar
stage itself returns a tree or a parse error on any input, never a panic),
the tree-walking stage of `parse_manifest` returns a parsed manifest or an
error value — the `.unwrap()` panic sites are unreachable. -/
theorem c8_parse_manifest_no_panic (t : STree) (hwf : WfT t) :
    (∃ mfst, parseManifestT t = PResult.ok mfst) ∨
    (∃ e, parseManifestT t = PResult.err e) := by
  have hne := parseManifestT_ne t hwf
  cases h : parseManifestT t with
  | ok mfst => exact Or.inl ⟨mfst, rfl⟩
  | err e => exact Or.inr ⟨e, rfl⟩
  | panicked => exact absurd h hne

/-- A concrete conformant syntax tree: `module a { depends_on = [] }`. -/
def sampleTree : STree :=
  .node .manifest "module a \x7b depends_on = [] \x7d" [
    .node .statement "" [
      .node .module_block "" [
        .node .identifier "a" [],
        .node .module_field "" [
          .node .depends_on_field "" [.node .array "" []]]]],
    .node .EOI "" []]

lemma sampleTree_wf : WfT sampleTree := by
  refine WfT.node _ _ _ rfl ?_
  intro c hc
  simp only [List.mem_cons, List.not_mem_nil, or_false] at hc
  rcases hc with rfl | rfl
  · refine WfT.node _ _ _ rfl ?_
    intro c hc
    simp only [List.mem_cons, List.not_mem_nil, or_false] at hc
    subst hc
    refine WfT.node _ _ _ rfl ?_
    intro c hc
    simp only [List.mem_cons, List.not_mem_nil, or_false] at hc
    rcases hc with rfl | rfl
    · exact WfT.node _ _ _ rfl (by intro c hc; cases hc)
    · refine WfT.node _ _ _ rfl ?_
      intro c hc
      simp only [List.mem_cons, List.not_mem_nil, or_false] at hc
      subst hc
      refine WfT.node _ _ _ rfl ?_
      intro c hc
      simp only [List.mem_cons, List.not_mem_nil, or_false] at hc
      subst hc
      exact WfT.node _ _ _ rfl (by intro c hc; cases hc)
  · exact WfT.node _ _ _ rfl (by intro c hc; cases hc)

/-- Witness for `c8_parse_manifest_no_panic` at `sampleTree`. -/
theorem c8_parse_manifest_no_panic_witness :
    (∃ mfst, parseManifestT sampleTree = PResult.ok mfst) ∨
    (∃ e, parseManifestT sampleTree = PResult.err e) :=
  c8_parse_manifest_no_panic sampleTree sampleTree_wf

end Sprout
